import Mathlib

/-!
# Verification of the Toolbox repository

Shallow embedding of `toolbox/pytorch/data/datasets.py` (the `Dataset` class:
construction, splitting, shuffling, indexing) and
`toolbox/pytorch/model/training.py` (the `DefaultTrainLoop` class: attribute
parsing and the default training loop with its lifecycle hooks), together with
theorems settling the specification claims.

Modelling conventions:
* Python exceptions are modelled with `Except PyErr`; an `assert` failure is
  `PyErr.assertionError msg` with the message built as in the source.
* Python's global `random` module is modelled as an explicitly threaded state
  (`Nat`), with a concrete deterministic generator standing in for the
  Mersenne Twister: `random.shuffle` consumes the state and produces a
  permutation of its input, `random.seed` resets the state.  The claims
  settled here depend only on shuffling being a state-determined permutation,
  not on which permutation it is.
* Python `float` arithmetic in the split code is idealised as exact rational
  arithmetic (`ℚ`); `int(x)` is truncation toward zero (`pyTrunc`).  The
  properties proved (telescoping sums, division by zero, slice bounds) do not
  hinge on rounding of individual results.
* The embedding stores the subsets created by `_split` directly in the
  superset, where the Python code stores them as instance attributes
  (`setattr`) and then collects them back by name; it therefore assumes
  subset names do not collide with the object's own attribute and method
  names (`name`, `data`, `seed`, `is_superset`, `_make_subset`, ...).
-/

/-- Python exceptions that the embedded code can raise. -/
inductive PyErr where
  | assertionError (msg : String)
  | zeroDivisionError
  | indexError
  deriving DecidableEq, Repr

/-- Model of the `random` module's generator step: a linear congruential
generator standing in for the Mersenne Twister.  Only determinism and
state-threading matter for the claims. -/
def lcg (s : Nat) : Nat := (s * 1103515245 + 12345) % 2 ^ 31

/-- Model of `random.seed(x)`: the global generator state becomes a function
of the seed alone. -/
def pySeedState (x : Int) : Nat := x.natAbs % 2 ^ 31

/-- Fisher–Yates shuffle driven by the modelled generator: repeatedly pick a
position (determined by the current state), move that element to the front,
and recurse on the rest with the advanced state.  The fuel argument is the
list length.  Models `random.shuffle`'s in-place permutation. -/
def shuffleAux {α : Type} : Nat → Nat → List α → List α × Nat
  | 0, s, l => (l, s)
  | n + 1, s, l =>
    if h : l.length = 0 then (l, s)
    else
      let j := s % l.length
      let p := shuffleAux n (lcg s) (l.eraseIdx j)
      (l.get ⟨j, Nat.mod_lt _ (Nat.pos_of_ne_zero h)⟩ :: p.1, p.2)

/-- Model of `random.shuffle(l)` under generator state `s`: the shuffled list
and the advanced state. -/
def pyShuffle {α : Type} (s : Nat) (l : List α) : List α × Nat :=
  shuffleAux l.length s l

/-- Normalisation of one slice bound, as Python does for `l[i:j]`:
negative indices count from the end (clamped at 0), nonnegative indices are
clamped at the length. -/
def pySliceIdx (n : Nat) (i : Int) : Nat :=
  if i < 0 then ((n : Int) + i).toNat else min i.toNat n

/-- Model of the Python slice `l[i:j]`. -/
def pySlice {α : Type} (l : List α) (i j : Int) : List α :=
  let a := pySliceIdx l.length i
  let b := pySliceIdx l.length j
  (l.drop a).take (b - a)

/-- The `Dataset` class of `datasets.py`.  A dataset is either a plain list of
records (`is_superset = False`) or a superset holding sub-datasets
(`is_superset = True`, after `_split` replaced `self.data` with the list of
subsets).  `name` and `seed` are the `self.name` and `self.seed` attributes. -/
inductive Dataset (α : Type) : Type where
  | leaf (name : String) (seed : Option Int) (data : List α)
  | node (name : String) (seed : Option Int) (subs : List (Dataset α))

namespace Dataset

/-- The `self.name` attribute. -/
def nameOf {α : Type} : Dataset α → String
  | .leaf n _ _ => n
  | .node n _ _ => n

/-- The `self.seed` attribute. -/
def seedOf {α : Type} : Dataset α → Option Int
  | .leaf _ s _ => s
  | .node _ s _ => s

mutual

/-- Method `Dataset.__len__`: the list length for a plain dataset, the sum of the
subset lengths for a superset. -/
def len {α : Type} : Dataset α → Nat
  | .leaf _ _ d => d.length
  | .node _ _ subs => lenList subs

/-- The accumulation loop of `__len__` over `self.data` for a superset. -/
def lenList {α : Type} : List (Dataset α) → Nat
  | [] => 0
  | d :: ds => d.len + lenList ds

end

mutual

/-- Method `Dataset.__getitem__`: on a superset, scan the subsets in order and
return `ds[idx]` for the first subset `ds` with `idx < len(ds)` (the index is
not offset by the skipped subsets' lengths); if every subset is skipped the
`for` loop falls through and the method returns `None` (`.ok none`).  On a
plain dataset, `self.data[idx]`, raising `IndexError` out of range. -/
def getitem {α : Type} : Dataset α → Nat → Except PyErr (Option α)
  | .leaf _ _ d, idx =>
    if h : idx < d.length then .ok (some (d.get ⟨idx, h⟩)) else .error .indexError
  | .node _ _ subs, idx => getitemList subs idx

/-- The subset scan of `__getitem__`. -/
def getitemList {α : Type} : List (Dataset α) → Nat → Except PyErr (Option α)
  | [], _ => .ok none
  | d :: ds, idx => if d.len ≤ idx then getitemList ds idx else d.getitem idx

end

mutual

/-- The records held by a dataset, in subset order: for a superset, the
concatenation of the subsets' records.  (The specification's view of a
superset's contents; used to state the indexing claim.) -/
def records {α : Type} : Dataset α → List α
  | .leaf _ _ d => d
  | .node _ _ subs => recordsList subs

/-- Concatenation of the records of a list of datasets. -/
def recordsList {α : Type} : List (Dataset α) → List α
  | [] => []
  | d :: ds => d.records ++ recordsList ds

end

end Dataset

/-- The quantity `sum([ord(c) for c in name])` from `_split`'s subset-seed derivation. -/
def ordSum (s : String) : Int :=
  (s.data.map fun c => (c.toNat : Int)).sum

/-- Python `int(x)` on a number: truncation toward zero. -/
def pyTrunc (q : ℚ) : Int :=
  if 0 ≤ q then Int.floor q else -Int.floor (-q)

/-- Python dict assignment `d[key] = v`: replaces the value in place if the
key is present (keeping its position), otherwise appends the binding. -/
def dictSet {β : Type} (l : List (String × β)) (key : String) (v : β) :
    List (String × β) :=
  if l.any (fun p => p.1 == key) then
    l.map fun p => if p.1 == key then (key, v) else p
  else l ++ [(key, v)]

/-- The loop body of `_float_split_to_int`: for each entry, divide the value
by the sum of the values from this entry onward (`sum(subset_sizes[i:])`,
raising `ZeroDivisionError` when that sum is zero), take that share of the
remaining `data_entries` truncated to an integer, and subtract it from the
remainder. -/
def fsiAux : Int → List (String × ℚ) → Except PyErr (List (String × Int))
  | _, [] => .ok []
  | de, (n, v) :: rest =>
    let s := v + (rest.map Prod.snd).sum
    if s = 0 then .error .zeroDivisionError
    else
      let o := pyTrunc ((de : ℚ) * (v / s))
      match fsiAux (de - o) rest with
      | .error e => .error e
      | .ok tl => .ok ((n, o) :: tl)

/-- Method `_float_split_to_int(split)` with `data_entries = len(self.data)`. -/
def floatSplitToInt {α : Type} (data : List α) (split : List (String × ℚ)) :
    Except PyErr (List (String × Int)) :=
  fsiAux (data.length : Int) split

/-- The subset-creation loop of `_split`: slice `self.data[index:index+length]`,
derive the stored subset seed (`self.seed + sum(ord(c)) + length` when a seed
was given), and build the subset via `_make_subset`, i.e. `cls(subset_name,
subset_data, randomise=randomise, seed=subset_seed)`.  That constructor call
pops `seed` from its kwargs before dispatching, and since the `randomise` key
is present (whatever its value) it reaches `_randomise_data` with
`seed = None`: the subset's data is shuffled with the ambient generator state
and the derived seed is stored but never used for shuffling. -/
def mkSubsets {α : Type} (dsName : String) (data : List α) (seed : Option Int) :
    Int → Nat → List (String × Int) → List (Dataset α) × Nat
  | _, st, [] => ([], st)
  | index, st, (n, len) :: rest =>
    let subData := pySlice data index (index + len)
    let subSeed := seed.map fun s => s + ordSum n + len
    let sh := pyShuffle st subData
    let sub : Dataset α := .leaf (dsName ++ "." ++ n) subSeed sh.1
    let tl := mkSubsets dsName data seed (index + len) sh.2 rest
    (sub :: tl.1, tl.2)

/-- The integer half of `_split`: assert that the requested total does not
exceed the available data, add a `'rest'` entry for the leftover when the
total falls short, then create the subsets and mark the dataset a superset. -/
def splitInt {α : Type} (dsName : String) (data : List α) (seed : Option Int)
    (isplit : List (String × Int)) (st : Nat) : Except PyErr (Dataset α × Nat) :=
  let total := (isplit.map Prod.snd).sum
  if total ≤ (data.length : Int) then
    let isplit' :=
      if total < (data.length : Int) then
        dictSet isplit "rest" ((data.length : Int) - total)
      else isplit
    let subs := mkSubsets dsName data seed 0 st isplit'
    .ok (.node dsName seed subs.1, subs.2)
  else
    .error (.assertionError ("Not enough data! " ++ ("Split requires a total of "
      ++ toString total ++ " data entries but only " ++ toString data.length
      ++ " are available.")))

/-- The float half of `_split`: assert the percentages total at most 1, add a
`'rest'` entry for the missing share, convert to integer counts with
`_float_split_to_int`, and continue with the integer half. -/
def splitFloat {α : Type} (dsName : String) (data : List α) (seed : Option Int)
    (fsplit : List (String × ℚ)) (st : Nat) : Except PyErr (Dataset α × Nat) :=
  let total := (fsplit.map Prod.snd).sum
  if total ≤ 1 then
    let fsplit' := if total < 1 then dictSet fsplit "rest" (1 - total) else fsplit
    match floatSplitToInt data fsplit' with
    | .error e => .error e
    | .ok isplit => splitInt dsName data seed isplit st
  else
    .error (.assertionError ("Not enough data! " ++ ("Split requires a total of "
      ++ toString (total * 100) ++ "%. " ++ "Split should not exceed 100%.")))

/-- A `split` dictionary with homogeneous values.  (A mixed int/float dict
makes Python's `sum` a float, so it behaves like the float case; only
homogeneous splits are modelled.) -/
inductive SplitSpec where
  | ints (l : List (String × Int))
  | floats (l : List (String × ℚ))

/-- Constructor `Dataset.__init__(name, data, **kwargs)`.  `seed` is stored and popped
from the kwargs.  If the `split` key is present, `_split` runs (an all-float
split whose values sum to an `int`, i.e. the empty split, follows the integer
branch, matching `sum([]) == 0`).  Otherwise, if the `randomise` key is
present — whatever its value, the code tests membership, not truth —
`_randomise_data` runs with `seed = None` (it was popped), shuffling with the
ambient generator state.  The generator state is threaded through and
returned alongside the dataset. -/
def mkDataset {α : Type} (name : String) (data : List α) (split : Option SplitSpec)
    (randomise : Option Bool) (seed : Option Int) (st : Nat) :
    Except PyErr (Dataset α × Nat) :=
  match split with
  | some (.ints l) => splitInt name data seed l st
  | some (.floats l) =>
    if l.isEmpty then splitInt name data seed [] st
    else splitFloat name data seed l st
  | none =>
    match randomise with
    | some _ =>
      let sh := pyShuffle st data
      .ok (.leaf name seed sh.1, sh.2)
    | none => .ok (.leaf name seed data, st)

/-- All values of a split are nonnegative. -/
def SplitNonneg : SplitSpec → Prop
  | .ints l => ∀ p ∈ l, 0 ≤ p.2
  | .floats l => ∀ p ∈ l, 0 ≤ p.2

/-- An integer split has no user entry named `'rest'` (whose value the
leftover assignment `split['rest'] = ...` would overwrite in place). -/
def RestSafe : SplitSpec → Prop
  | .ints l => "rest" ∉ l.map Prod.fst
  | .floats _ => True

/-! ## The training loop of `training.py` -/

/-- Lifecycle hook invocations of `DefaultTrainLoop`.  `kbHook e b` is
`on_keyboard_interrupt(e, b)`; the epoch-level handler calls it with the
default `batch = 0`. -/
inductive Ev where
  | startTrain
  | startEpoch (e : Nat)
  | startBatch (e b : Nat)
  | endBatch (e b : Nat)
  | endEpoch (e : Nat)
  | kbHook (e b : Nat)
  | endTrain
  deriving DecidableEq, Repr

/-- Execution state of the loop model: the trace of hook invocations so far
and a counter of hook invocations (used to schedule interrupts). -/
abbrev TState := List Ev × Nat

/-- Invoke a hook: append the event to the trace and advance the counter.
`sched` decides whether a `KeyboardInterrupt` arrives during this invocation
(a cooperative model of the asynchronous signal: interrupts surface inside
hook calls, where the `try`/`except` blocks of the source catch them). -/
def callHook (sched : Nat → Bool) (ev : Ev) (st : TState) : TState × Bool :=
  ((st.1 ++ [ev], st.2 + 1), sched st.2)

/-- The inner batch loop of `_default_training_loop`: batches with index
below `start_at_batch` are skipped; otherwise `on_start_of_batch` then
`on_end_of_batch` run inside a `try` whose `except KeyboardInterrupt` calls
`on_keyboard_interrupt(epoch, batch)` and then lets the `for` loop continue
with the next batch.  A `KeyboardInterrupt` raised inside that handler
propagates to the epoch-level handler (the returned flag). -/
def runBatchList (sched : Nat → Bool) (sab e : Nat) :
    List Nat → TState → TState × Bool
  | [], st => (st, false)
  | b :: bs, st =>
    if b < sab then runBatchList sched sab e bs st
    else
      let c1 := callHook sched (.startBatch e b) st
      if c1.2 then
        let ch := callHook sched (.kbHook e b) c1.1
        if ch.2 then (ch.1, true) else runBatchList sched sab e bs ch.1
      else
        let c2 := callHook sched (.endBatch e b) c1.1
        if c2.2 then
          let ch := callHook sched (.kbHook e b) c2.1
          if ch.2 then (ch.1, true) else runBatchList sched sab e bs ch.1
        else runBatchList sched sab e bs c2.1

/-- The epoch loop of `_default_training_loop`: `on_start_of_epoch`, the
batch loop, `on_end_of_epoch`, all inside a `try` whose
`except KeyboardInterrupt` calls `on_keyboard_interrupt(epoch)` (batch
defaults to 0) and then lets the `for` loop continue with the next epoch.
A `KeyboardInterrupt` raised inside that handler propagates out of the
method (the returned flag). -/
def runEpochList (sched : Nat → Bool) (sab nB : Nat) :
    List Nat → TState → TState × Bool
  | [], st => (st, false)
  | e :: es, st =>
    let c1 := callHook sched (.startEpoch e) st
    if c1.2 then
      let ch := callHook sched (.kbHook e 0) c1.1
      if ch.2 then (ch.1, true) else runEpochList sched sab nB es ch.1
    else
      let rb := runBatchList sched sab e (List.range' 1 nB) c1.1
      if rb.2 then
        let ch := callHook sched (.kbHook e 0) rb.1
        if ch.2 then (ch.1, true) else runEpochList sched sab nB es ch.1
      else
        let c2 := callHook sched (.endEpoch e) rb.1
        if c2.2 then
          let ch := callHook sched (.kbHook e 0) c2.1
          if ch.2 then (ch.1, true) else runEpochList sched sab nB es ch.1
        else runEpochList sched sab nB es c2.1

/-- Method `_default_training_loop(start_at_epoch, start_at_batch)` over a train
loader with `nB` batches (numbered from 1 by `enumerate(train_loader, 1)`).
`on_start_of_training` runs only when both start parameters equal 1; the
epochs are `range(start_at_epoch, nr_of_epochs + 1)`; `on_end_of_training`
runs after the loop.  Returns the trace with the final invocation counter,
and whether an uncaught `KeyboardInterrupt` escaped the method (in which
case the trailing hooks never ran). -/
def defaultTrainingLoop (sched : Nat → Bool) (nrOfEpochs nB sae sab : Nat) :
    TState × Bool :=
  let init : TState × Bool :=
    if sae = 1 ∧ sab = 1 then callHook sched .startTrain ([], 0)
    else (([], 0), false)
  if init.2 then (init.1, true)
  else
    let re := runEpochList sched sab nB (List.range' sae (nrOfEpochs + 1 - sae)) init.1
    if re.2 then re
    else
      let ce := callHook sched .endTrain re.1
      (ce.1, ce.2)

/-- The batch-hook events of one epoch, in order. -/
def batchEvs (e : Nat) : List Nat → List Ev
  | [] => []
  | b :: bs => .startBatch e b :: .endBatch e b :: batchEvs e bs

/-- The hook events of a run of epochs, in order. -/
def epochEvs (nB : Nat) : List Nat → List Ev
  | [] => []
  | e :: es =>
    (.startEpoch e :: (batchEvs e (List.range' 1 nB) ++ [.endEpoch e])) ++ epochEvs nB es

/-- The hook-invocation order the specification describes for an
uninterrupted run with the default start parameters. -/
def canonicalTrace (nE nB : Nat) : List Ev :=
  .startTrain :: (epochEvs nB (List.range' 1 nE) ++ [.endTrain])

/-- The part of a trace after the first `on_keyboard_interrupt` invocation. -/
def afterFirstInterrupt : List Ev → List Ev
  | [] => []
  | .kbHook _ _ :: rest => rest
  | _ :: rest => afterFirstInterrupt rest

/-- Epoch- or batch-processing events. -/
def isWorkEv : Ev → Bool
  | .startEpoch _ => true
  | .startBatch _ _ => true
  | .endBatch _ _ => true
  | .endEpoch _ => true
  | _ => false

/-- The claim's "no further batches or epochs are processed after the
interrupt", as a predicate on traces. -/
def processesWorkAfterInterrupt (tr : List Ev) : Bool :=
  (afterFirstInterrupt tr).any isWorkEv

/-! ## Attribute parsing of `DefaultTrainLoop.__init__` -/

/-- Values held in `DefaultTrainLoop` attributes: `None`, opaque host-framework
objects (models, loaders, criteria, optimisers), integers, the empty dict
default of `val_loader`, `model.parameters()`, and
`SGD(params, lr=0.00005, momentum=0.9)` (learning rate and momentum are
constants in the source and are not modelled). -/
inductive Obj where
  | noneV
  | ext (id : Nat)
  | intV (i : Int)
  | emptyDict
  | paramsOf (m : Obj)
  | sgd (params : Obj)
  deriving DecidableEq, Repr

/-- The attribute dictionary created at the top of `__init__`, in insertion
order (`vars(self)` preserves it). -/
def defaultAttrs : List (String × Obj) :=
  [("model", .noneV), ("train_loader", .noneV), ("criterion", .noneV),
   ("optimiser", .noneV), ("val_loader", .emptyDict), ("nr_of_epochs", .intV 100)]

/-- The loop `zip(input_dict.keys(), args)`: fill attributes positionally, dropping
surplus positional arguments. -/
def fillArgs : List (String × Obj) → List Obj → List (String × Obj)
  | d, [] => d
  | [], _ => []
  | (k, _) :: d, a :: as => (k, a) :: fillArgs d as

/-- The statement `if key in input_dict.keys(): input_dict[key] = value` — update an
existing attribute, silently ignore an unknown keyword. -/
def setIfPresent (d : List (String × Obj)) (k : String) (v : Obj) :
    List (String × Obj) :=
  d.map fun p => if p.1 = k then (k, v) else p

/-- The kwargs loop of `_set_attributes`. -/
def fillKwargs (d : List (String × Obj)) : List (String × Obj) → List (String × Obj)
  | [] => d
  | (k, v) :: rest => fillKwargs (setIfPresent d k v) rest

/-- Attribute lookup in the dictionary. -/
def lookupAttr (d : List (String × Obj)) (k : String) : Obj :=
  ((d.find? fun p => p.1 == k).map Prod.snd).getD .noneV

/-- Methods `DefaultTrainLoop.__init__` and `_set_attributes`: defaults, positional
fill, keyword fill, the three `assert ... is not None` checks (in source
order), and the SGD default for `optimiser`. -/
def setAttributes (args : List Obj) (kwargs : List (String × Obj)) :
    Except PyErr (List (String × Obj)) :=
  let d := fillKwargs (fillArgs defaultAttrs args) kwargs
  if lookupAttr d "model" = .noneV then
    .error (.assertionError "Model not specified.")
  else if lookupAttr d "train_loader" = .noneV then
    .error (.assertionError "Train_loader not specified.")
  else if lookupAttr d "criterion" = .noneV then
    .error (.assertionError "Criterion not specified.")
  else
    .ok (if lookupAttr d "optimiser" = .noneV then
          setIfPresent d "optimiser" (.sgd (.paramsOf (lookupAttr d "model")))
        else d)

/-! ## Helper lemmas -/

/-- Picking the `j`-th element to the front of the remainder is a
permutation. -/
theorem cons_get_eraseIdx_perm {α : Type} (l : List α) (j : Nat) (h : j < l.length) :
    List.Perm (l.get ⟨j, h⟩ :: l.eraseIdx j) l := by
  induction l generalizing j with
  | nil => simp at h
  | cons a t ih =>
    cases j with
    | zero => simp [List.eraseIdx]
    | succ j =>
      simp only [List.get, List.eraseIdx]
      have hj : j < t.length := by simpa using h
      exact (List.Perm.swap a (t.get ⟨j, hj⟩) (t.eraseIdx j)).trans ((ih j hj).cons a)

/-- The shuffle model always produces a permutation of its input. -/
theorem shuffleAux_perm {α : Type} (n : Nat) (s : Nat) (l : List α) :
    List.Perm (shuffleAux n s l).1 l := by
  induction n generalizing s l with
  | zero => simp [shuffleAux]
  | succ n ih =>
    by_cases h : l.length = 0
    · simp [shuffleAux, h]
    · simp only [shuffleAux, h, dite_false]
      exact ((ih (lcg s) (l.eraseIdx (s % l.length))).cons _).trans
        (cons_get_eraseIdx_perm l _ (Nat.mod_lt _ (Nat.pos_of_ne_zero h)))

theorem pyShuffle_perm {α : Type} (s : Nat) (l : List α) :
    List.Perm (pyShuffle s l).1 l :=
  shuffleAux_perm l.length s l

theorem pyShuffle_length {α : Type} (s : Nat) (l : List α) :
    (pyShuffle s l).1.length = l.length :=
  (pyShuffle_perm s l).length_eq

theorem pySlice_length {α : Type} (l : List α) (i j : Int)
    (h0 : 0 ≤ i) (hij : i ≤ j) (hj : j ≤ (l.length : Int)) :
    ((pySlice l i j).length : Int) = j - i := by
  simp only [pySlice, pySliceIdx, if_neg (by omega : ¬ i < 0),
    if_neg (by omega : ¬ j < 0), List.length_take, List.length_drop]
  omega

/-- A slice `l[i:len(l)]` with `0 ≤ i ≤ len(l)` is `l.drop i`. -/
theorem pySlice_to_length {α : Type} (l : List α) (i : Int)
    (h0 : 0 ≤ i) (hi : i ≤ (l.length : Int)) :
    pySlice l i (l.length : Int) = l.drop i.toNat := by
  simp only [pySlice, pySliceIdx, if_neg (by omega : ¬ i < 0),
    if_neg (by omega : ¬ (l.length : Int) < 0)]
  have h1 : min i.toNat l.length = i.toNat := by omega
  rw [h1, Int.toNat_natCast, Nat.min_self]
  exact List.take_of_length_le (by simp)

/-- Assigning a key that is not present appends the binding. -/
theorem dictSet_of_not_mem {β : Type} (l : List (String × β)) (k : String) (v : β)
    (h : k ∉ l.map Prod.fst) : dictSet l k v = l ++ [(k, v)] := by
  rw [dictSet, if_neg]
  simp only [List.any_eq_true, beq_iff_eq, not_exists, not_and]
  intro p hp hpk
  exact h (hpk ▸ List.mem_map_of_mem Prod.fst hp)

/-- Function `dictSet` preserves a predicate that holds for all values and the new
value. -/
theorem dictSet_forall {β : Type} (P : β → Prop) (l : List (String × β))
    (k : String) (v : β) (h : ∀ p ∈ l, P p.2) (hv : P v) :
    ∀ p ∈ dictSet l k v, P p.2 := by
  intro p hp
  rw [dictSet] at hp
  by_cases hc : l.any (fun p => p.1 == k)
  · rw [if_pos hc] at hp
    obtain ⟨q, hq, hqp⟩ := List.mem_map.1 hp
    by_cases hqk : q.1 = k
    · simp only [hqk, beq_self_eq_true, if_true] at hqp
      exact hqp ▸ hv
    · rw [if_neg (by simpa using hqk)] at hqp
      exact hqp ▸ h q hq
  · rw [if_neg hc] at hp
    rcases List.mem_append.1 hp with hp | hp
    · exact h p hp
    · simp only [List.mem_singleton] at hp
      exact hp ▸ hv

/-- Function `dictSet` never empties a non-empty dictionary. -/
theorem dictSet_ne_nil {β : Type} (l : List (String × β)) (k : String) (v : β) :
    dictSet l k v ≠ [] := by
  rw [dictSet]
  by_cases hc : l.any (fun p => p.1 == k)
  · rw [if_pos hc]
    intro hnil
    rcases l with _ | ⟨p, t⟩
    · simp at hc
    · simp at hnil
  · rw [if_neg hc]
    simp

/-- Method `_float_split_to_int` preserves the subset names in order. -/
theorem fsiAux_keys (l : List (String × ℚ)) (de : Int) (out : List (String × Int))
    (hok : fsiAux de l = .ok out) : out.map Prod.fst = l.map Prod.fst := by
  induction l generalizing de out with
  | nil =>
    simp only [fsiAux, Except.ok.injEq] at hok
    simp [← hok]
  | cons p rest ih =>
    obtain ⟨n, v⟩ := p
    simp only [fsiAux] at hok
    by_cases hs : v + (rest.map Prod.snd).sum = 0
    · simp [hs] at hok
    · rw [if_neg hs] at hok
      rcases hrec : fsiAux (de - pyTrunc ((de : ℚ) * (v / (v + (rest.map Prod.snd).sum)))) rest with e | tl
      · rw [hrec] at hok; simp at hok
      · rw [hrec] at hok
        simp only [Except.ok.injEq] at hok
        subst hok
        simpa using ih _ _ hrec

/-- Method `_float_split_to_int` on an all-positive split never divides by zero. -/
theorem fsiAux_isOk_of_pos (l : List (String × ℚ)) (de : Int)
    (hpos : ∀ p ∈ l, 0 < p.2) : ∃ out, fsiAux de l = .ok out := by
  induction l generalizing de with
  | nil => exact ⟨[], rfl⟩
  | cons p rest ih =>
    obtain ⟨n, v⟩ := p
    have hv : 0 < v := hpos (n, v) (List.mem_cons_self _ _)
    have hrest : ∀ q ∈ rest, 0 < q.2 := fun q hq => hpos q (List.mem_cons_of_mem _ hq)
    have hsum : 0 ≤ (rest.map Prod.snd).sum := by
      apply List.sum_nonneg
      intro x hx
      obtain ⟨q, hq, rfl⟩ := List.mem_map.1 hx
      exact le_of_lt (hrest q hq)
    have hs : v + (rest.map Prod.snd).sum ≠ 0 := by positivity
    obtain ⟨tl, htl⟩ :=
      ih (de - pyTrunc ((de : ℚ) * (v / (v + (rest.map Prod.snd).sum)))) hrest
    refine ⟨(n, pyTrunc ((de : ℚ) * (v / (v + (rest.map Prod.snd).sum)))) :: tl, ?_⟩
    simp only [fsiAux]
    rw [if_neg hs, htl]

/-- Telescoping of `_float_split_to_int`: on a non-empty split with
nonnegative values, the integer sizes are nonnegative and sum exactly to
`data_entries`, because the final entry's share is
`int(remaining * (v / v)) = remaining`. -/
theorem fsiAux_sum (l : List (String × ℚ)) (de : Int) (out : List (String × Int))
    (hde : 0 ≤ de) (hnn : ∀ p ∈ l, 0 ≤ p.2) (hne : l ≠ [])
    (hok : fsiAux de l = .ok out) :
    (∀ p ∈ out, 0 ≤ p.2) ∧ (out.map Prod.snd).sum = de := by
  induction l generalizing de out with
  | nil => exact absurd rfl hne
  | cons p rest ih =>
    obtain ⟨n, v⟩ := p
    have hv : 0 ≤ v := hnn (n, v) (List.mem_cons_self _ _)
    have hrest : ∀ q ∈ rest, 0 ≤ q.2 := fun q hq => hnn q (List.mem_cons_of_mem _ hq)
    have hsumrest : 0 ≤ (rest.map Prod.snd).sum := by
      apply List.sum_nonneg
      intro x hx
      obtain ⟨q, hq, rfl⟩ := List.mem_map.1 hx
      exact hrest q hq
    simp only [fsiAux] at hok
    by_cases hs : v + (rest.map Prod.snd).sum = 0
    · rw [if_pos hs] at hok
      exact absurd hok (by simp)
    · rw [if_neg hs] at hok
      have hspos : 0 < v + (rest.map Prod.snd).sum :=
        lt_of_le_of_ne (add_nonneg hv hsumrest) (Ne.symm hs)
      have hr1 : v / (v + (rest.map Prod.snd).sum) ≤ 1 :=
        (div_le_one hspos).2 (le_add_of_nonneg_right hsumrest)
      have hr0 : 0 ≤ v / (v + (rest.map Prod.snd).sum) :=
        div_nonneg hv (le_of_lt hspos)
      have hprod0 : 0 ≤ (de : ℚ) * (v / (v + (rest.map Prod.snd).sum)) :=
        mul_nonneg (by exact_mod_cast hde) hr0
      have hfl : pyTrunc ((de : ℚ) * (v / (v + (rest.map Prod.snd).sum)))
          = Int.floor ((de : ℚ) * (v / (v + (rest.map Prod.snd).sum))) :=
        if_pos hprod0
      have ho0 : 0 ≤ pyTrunc ((de : ℚ) * (v / (v + (rest.map Prod.snd).sum))) := by
        rw [hfl]
        exact Int.le_floor.2 (by exact_mod_cast hprod0)
      have hode : pyTrunc ((de : ℚ) * (v / (v + (rest.map Prod.snd).sum))) ≤ de := by
        rw [hfl]
        calc Int.floor ((de : ℚ) * (v / (v + (rest.map Prod.snd).sum)))
            ≤ Int.floor ((de : ℚ)) :=
              Int.floor_mono (mul_le_of_le_one_right (by exact_mod_cast hde) hr1)
          _ = de := Int.floor_intCast de
      by_cases hrn : rest = []
      · subst hrn
        simp only [fsiAux, Except.ok.injEq] at hok
        subst hok
        have hv0 : v ≠ 0 := by simpa using hs
        have ho : pyTrunc ((de : ℚ) * (v / (v + (List.map Prod.snd ([] : List (String × ℚ))).sum))) = de := by
          simp only [List.map_nil, List.sum_nil, add_zero, div_self hv0, mul_one, pyTrunc]
          rw [if_pos (by exact_mod_cast hde : (0 : ℚ) ≤ (de : ℚ))]
          exact Int.floor_intCast de
        constructor
        · intro q hq
          simp only [List.mem_singleton] at hq
          subst hq
          simpa using ho0
        · simpa using ho
      · rcases hrec : fsiAux (de - pyTrunc ((de : ℚ) * (v / (v + (rest.map Prod.snd).sum)))) rest with e | tl
        · rw [hrec] at hok
          exact absurd hok (by simp)
        · rw [hrec] at hok
          simp only [Except.ok.injEq] at hok
          subst hok
          obtain ⟨htl0, htls⟩ := ih _ _ (by omega) hrest hrn hrec
          constructor
          · intro q hq
            rcases List.mem_cons.1 hq with hq | hq
            · subst hq; exact ho0
            · exact htl0 q hq
          · simp only [List.map_cons, List.sum_cons, htls]
            omega

/-- Method `_split` creates one subset per entry of the (leftover-extended) split. -/
theorem mkSubsets_length {α : Type} (dsName : String) (data : List α)
    (seed : Option Int) (l : List (String × Int)) (index : Int) (st : Nat) :
    ((mkSubsets dsName data seed index st l).1).length = l.length := by
  induction l generalizing index st with
  | nil => simp [mkSubsets]
  | cons p rest ih =>
    obtain ⟨n, v⟩ := p
    simp [mkSubsets, ih]

/-- With nonnegative sizes that fit into the data from position `index` on,
each created subset holds exactly its requested number of records (the slice
is fully in range and shuffling preserves length). -/
theorem mkSubsets_lenList {α : Type} (dsName : String) (data : List α)
    (seed : Option Int) (l : List (String × Int)) (index : Int) (st : Nat)
    (hnn : ∀ p ∈ l, 0 ≤ p.2) (hix : 0 ≤ index)
    (hle : index + (l.map Prod.snd).sum ≤ (data.length : Int)) :
    ((Dataset.lenList (mkSubsets dsName data seed index st l).1 : Nat) : Int)
      = (l.map Prod.snd).sum := by
  induction l generalizing index st with
  | nil => simp [mkSubsets, Dataset.lenList]
  | cons p rest ih =>
    obtain ⟨n, v⟩ := p
    have hv : 0 ≤ v := hnn (n, v) (List.mem_cons_self _ _)
    have hrest : ∀ q ∈ rest, 0 ≤ q.2 := fun q hq => hnn q (List.mem_cons_of_mem _ hq)
    have hsumrest : 0 ≤ (rest.map Prod.snd).sum := by
      apply List.sum_nonneg
      intro x hx
      obtain ⟨q, hq, rfl⟩ := List.mem_map.1 hx
      exact hrest q hq
    simp only [List.map_cons, List.sum_cons] at hle ⊢
    have hslice : (((pySlice data index (index + v)).length : Nat) : Int) = v := by
      have := pySlice_length data index (index + v) hix (by omega) (by omega)
      omega
    have hsh : (((pyShuffle st (pySlice data index (index + v))).1.length : Nat) : Int) = v := by
      rw [pyShuffle_length]
      exact hslice
    have ihh := ih (index + v) (pyShuffle st (pySlice data index (index + v))).2
      hrest (by omega) (by omega)
    simp only [mkSubsets, Dataset.lenList, Dataset.len]
    push_cast at ihh hsh ⊢
    omega

/-- Splitting a split list splits the subset-creation loop, with the slice
index advanced by the first part's total and the generator state threaded
through. -/
theorem mkSubsets_append {α : Type} (dsName : String) (data : List α)
    (seed : Option Int) (l₁ l₂ : List (String × Int)) (index : Int) (st : Nat) :
    mkSubsets dsName data seed index st (l₁ ++ l₂)
      = ((mkSubsets dsName data seed index st l₁).1
          ++ (mkSubsets dsName data seed (index + (l₁.map Prod.snd).sum)
                (mkSubsets dsName data seed index st l₁).2 l₂).1,
         (mkSubsets dsName data seed (index + (l₁.map Prod.snd).sum)
            (mkSubsets dsName data seed index st l₁).2 l₂).2) := by
  induction l₁ generalizing index st with
  | nil => simp [mkSubsets]
  | cons p rest ih =>
    obtain ⟨n, v⟩ := p
    simp only [List.cons_append, mkSubsets, List.map_cons, List.sum_cons, List.append_eq]
    rw [ih]
    simp [add_assoc]

/-- If `splitInt` succeeds with nonnegative sizes, and either no user entry
is named `'rest'` or the sizes already sum to the data length, then the
superset's `__len__` equals the original data length. -/
theorem splitInt_len {α : Type} (dsName : String) (data : List α)
    (seed : Option Int) (isplit : List (String × Int)) (st : Nat)
    (ds : Dataset α) (st2 : Nat)
    (hnn : ∀ p ∈ isplit, 0 ≤ p.2)
    (hro : "rest" ∉ isplit.map Prod.fst
      ∨ (isplit.map Prod.snd).sum = (data.length : Int))
    (hok : splitInt dsName data seed isplit st = .ok (ds, st2)) :
    ds.len = data.length := by
  simp only [splitInt] at hok
  by_cases hle : (isplit.map Prod.snd).sum ≤ (data.length : Int)
  swap
  · rw [if_neg hle] at hok
    exact absurd hok (by simp)
  rw [if_pos hle] at hok
  simp only [Except.ok.injEq, Prod.mk.injEq] at hok
  obtain ⟨hds, -⟩ := hok
  subst hds
  by_cases hlt : (isplit.map Prod.snd).sum < (data.length : Int)
  · rcases hro with hro | hro
    swap
    · omega
    rw [if_pos hlt, dictSet_of_not_mem isplit "rest" _ hro]
    have hnn' : ∀ p ∈ isplit ++ [("rest", (data.length : Int) - (isplit.map Prod.snd).sum)], 0 ≤ p.2 := by
      intro p hp
      rcases List.mem_append.1 hp with hp | hp
      · exact hnn p hp
      · simp only [List.mem_singleton] at hp
        subst hp
        omega
    have hsum : ((isplit ++ [("rest", (data.length : Int) - (isplit.map Prod.snd).sum)]).map Prod.snd).sum
        = (data.length : Int) := by
      simp
    have := mkSubsets_lenList dsName data seed _ 0 st hnn' le_rfl (by rw [hsum]; omega)
    rw [hsum] at this
    simp only [Dataset.len]
    omega
  · have heq : (isplit.map Prod.snd).sum = (data.length : Int) := by omega
    rw [if_neg hlt]
    have := mkSubsets_lenList dsName data seed isplit 0 st hnn le_rfl (by omega)
    rw [heq] at this
    simp only [Dataset.len]
    omega

/-- Function `splitInt` succeeds exactly when the assertion passes. -/
theorem splitInt_isOk {α : Type} (dsName : String) (data : List α)
    (seed : Option Int) (isplit : List (String × Int)) (st : Nat)
    (hle : (isplit.map Prod.snd).sum ≤ (data.length : Int)) :
    ∃ r, splitInt dsName data seed isplit st = .ok r :=
  ⟨_, by rw [splitInt, if_pos hle]⟩

/-- A list of pairs whose key list ends in `k` splits off a final `k`
binding. -/
theorem eq_append_single_of_map_fst {β : Type} (out : List (String × β))
    (ks : List String) (k : String) (h : out.map Prod.fst = ks ++ [k]) :
    ∃ l₀ v, out = l₀ ++ [(k, v)] ∧ l₀.map Prod.fst = ks := by
  induction out generalizing ks with
  | nil => simp at h
  | cons p t ih =>
    obtain ⟨p1, p2⟩ := p
    rcases ks with _ | ⟨k0, ks'⟩
    · simp only [List.map_cons, List.nil_append, List.cons.injEq] at h
      obtain ⟨hpk, ht⟩ := h
      have ht' : t = [] := by
        cases t with
        | nil => rfl
        | cons q t' => simp at ht
      exact ⟨[], p2, by simp [ht', hpk], by simp⟩
    · simp only [List.map_cons, List.cons_append, List.cons.injEq] at h
      obtain ⟨hp, ht⟩ := h
      obtain ⟨l₀, v, rfl, hl₀⟩ := ih ks' ht
      exact ⟨(p1, p2) :: l₀, v, by simp, by simp [hp, hl₀]⟩

/-- When the split ends with a `'rest'` entry holding exactly the leftover
count, `splitInt` appends a final subset named `<name>.rest` whose records
are a permutation of the records not covered by the preceding subsets. -/
theorem splitInt_rest_last {α : Type} (dsName : String) (data : List α)
    (seed : Option Int) (l₀ : List (String × Int)) (δ : Int) (st : Nat)
    (ds : Dataset α) (st2 : Nat)
    (hnn : ∀ p ∈ l₀, 0 ≤ p.2) (hδ : 0 ≤ δ)
    (hsum : (l₀.map Prod.snd).sum + δ = (data.length : Int))
    (hok : splitInt dsName data seed (l₀ ++ [("rest", δ)]) st = .ok (ds, st2)) :
    ∃ named rsub, ds = .node dsName seed (named ++ [rsub])
      ∧ named.length = l₀.length
      ∧ Dataset.nameOf rsub = dsName ++ "." ++ "rest"
      ∧ List.Perm (Dataset.records rsub) (data.drop (Dataset.lenList named)) := by
  have hs0 : 0 ≤ (l₀.map Prod.snd).sum := by
    apply List.sum_nonneg
    intro x hx
    obtain ⟨q, hq, rfl⟩ := List.mem_map.1 hx
    exact hnn q hq
  have htot : ((l₀ ++ [("rest", δ)]).map Prod.snd).sum = (data.length : Int) := by
    simpa using hsum
  simp only [splitInt, htot] at hok
  rw [if_pos le_rfl, if_neg (lt_irrefl _)] at hok
  simp only [Except.ok.injEq, Prod.mk.injEq] at hok
  obtain ⟨hds, -⟩ := hok
  subst hds
  rw [mkSubsets_append] at *
  simp only [mkSubsets] at *
  refine ⟨(mkSubsets dsName data seed 0 st l₀).1, _, rfl,
    mkSubsets_length dsName data seed l₀ 0 st, rfl, ?_⟩
  have hlenl : ((Dataset.lenList (mkSubsets dsName data seed 0 st l₀).1 : Nat) : Int)
      = (l₀.map Prod.snd).sum :=
    mkSubsets_lenList dsName data seed l₀ 0 st hnn le_rfl (by omega)
  simp only [Dataset.records]
  refine (pyShuffle_perm _ _).trans ?_
  have hslice : pySlice data (0 + (l₀.map Prod.snd).sum) (0 + (l₀.map Prod.snd).sum + δ)
      = data.drop ((l₀.map Prod.snd).sum).toNat := by
    rw [zero_add]
    have hj : (l₀.map Prod.snd).sum + δ = (data.length : Int) := hsum
    rw [hj]
    exact pySlice_to_length data _ hs0 (by omega)
  rw [hslice]
  have : (Dataset.lenList (mkSubsets dsName data seed 0 st l₀).1 : Nat)
      = ((l₀.map Prod.snd).sum).toNat := by omega
  rw [this]

/-- When an integer split without a user `'rest'` entry requests strictly
less than the whole data, running `splitInt` is the same as running it on the
split extended with the `'rest'` leftover entry (whose total then matches the
data length exactly). -/
theorem splitInt_add_rest {α : Type} (dsName : String) (data : List α)
    (seed : Option Int) (l : List (String × Int)) (st : Nat)
    (hrest : "rest" ∉ l.map Prod.fst)
    (hlt : (l.map Prod.snd).sum < (data.length : Int)) :
    splitInt dsName data seed l st
      = splitInt dsName data seed
          (l ++ [("rest", (data.length : Int) - (l.map Prod.snd).sum)]) st := by
  have htot : ((l ++ [("rest", (data.length : Int) - (l.map Prod.snd).sum)]).map Prod.snd).sum
      = (data.length : Int) := by
    simp
  simp only [splitInt, htot]
  rw [if_pos (le_of_lt hlt), if_pos le_rfl, if_pos hlt, if_neg (lt_irrefl _),
    dictSet_of_not_mem l "rest" _ hrest]

/-! ## Claim theorems: datasets -/

/-- C1: the claim says `__getitem__(idx)` on a split dataset returns the
`idx`-th record of the concatenation of the subsets' records.  The code
violates it: the subset scan never offsets `idx` by the lengths of the
skipped subsets.  At the input below (`split = {a: 2, b: 3}` over five
records), index 2 lands in the second subset, and the code returns that
subset's record number 2 instead of its record number 0: `__getitem__(2)`
yields record `12` while the concatenation's record 2 is `13`. -/
theorem C1_code_eval :
    mkDataset "d" [10, 11, 12, 13, 14] (some (.ints [("a", 2), ("b", 3)])) none none 0
      = .ok (Dataset.node "d" none
          [Dataset.leaf "d.a" none [10, 11], Dataset.leaf "d.b" none [13, 14, 12]],
          229283573)
    ∧ (Dataset.node "d" none
        [Dataset.leaf "d.a" none [10, 11], Dataset.leaf "d.b" none [13, 14, 12]]).getitem 2
        = .ok (some 12)
    ∧ (Dataset.node "d" none
        [Dataset.leaf "d.a" none [10, 11], Dataset.leaf "d.b" none [13, 14, 12]]).records[2]?
        = some 13
    ∧ (Dataset.node "d" none
        [Dataset.leaf "d.a" none [10, 11], Dataset.leaf "d.b" none [13, 14, 12]]).len = 5
    ∧ (12 : Nat) ≠ 13 :=
  ⟨rfl, rfl, rfl, rfl, by decide⟩

/-- C2 counterexample: the claim's precondition only asks that the integer
split values sum to at most `len(data)`.  With a negative value
(`split = {a: -1, b: 2}` over four records, total `1 ≤ 4`) the construction
succeeds, but Python slicing with negative bounds makes the subsets overlap:
the subset lengths are 3, 0 and 3, summing to 6 ≠ 4. -/
theorem C2_counterexample :
    mkDataset "d" [0, 1, 2, 3] (some (.ints [("a", -1), ("b", 2)])) none none 0
      = .ok (Dataset.node "d" none
          [Dataset.leaf "d.a" none [0, 2, 1], Dataset.leaf "d.b" none [],
           Dataset.leaf "d.rest" none [3, 1, 2]], 1109335178)
    ∧ (Dataset.node "d" none
        [Dataset.leaf "d.a" none [0, 2, 1], Dataset.leaf "d.b" none [],
         Dataset.leaf "d.rest" none [3, 1, 2]] : Dataset Nat).len = 6
    ∧ (([("a", (-1 : Int)), ("b", 2)].map Prod.snd).sum ≤ (([0, 1, 2, 3] : List Nat).length : Int))
    ∧ (6 : Nat) ≠ 4 :=
  ⟨rfl, rfl, by decide, by decide⟩

/-- C2 (amended): for a split with nonnegative values satisfying the
assertions — and, in the integer case, no user entry named `'rest'` (which
the leftover assignment would overwrite) — the subset sizes sum to the
original data length: `len` of the superset equals `len(data)`.  In the
float case this rests on `_float_split_to_int` telescoping to exactly
`len(data)`. -/
theorem C2_theorem (α : Type) (name : String) (data : List α) (spec : SplitSpec)
    (randomise : Option Bool) (seed : Option Int) (st : Nat)
    (ds : Dataset α) (st2 : Nat)
    (hnn : SplitNonneg spec) (hrs : RestSafe spec)
    (hok : mkDataset name data (some spec) randomise seed st = .ok (ds, st2)) :
    ds.len = data.length := by
  cases spec with
  | ints l =>
    simp only [mkDataset] at hok
    exact splitInt_len name data seed l st ds st2 hnn (Or.inl hrs) hok
  | floats l =>
    simp only [mkDataset] at hok
    by_cases hemp : l.isEmpty
    · rw [if_pos hemp] at hok
      exact splitInt_len name data seed [] st ds st2 (by simp) (Or.inl (by simp)) hok
    · rw [if_neg hemp] at hok
      simp only [splitFloat, floatSplitToInt] at hok
      by_cases hle : (l.map Prod.snd).sum ≤ 1
      swap
      · rw [if_neg hle] at hok
        exact absurd hok (by simp)
      rw [if_pos hle] at hok
      have hlne : l ≠ [] := fun h => hemp (by simp [h])
      by_cases hlt : (l.map Prod.snd).sum < 1
      · rw [if_pos hlt] at hok
        have hnnf : ∀ p ∈ dictSet l "rest" (1 - (l.map Prod.snd).sum), 0 ≤ p.2 :=
          dictSet_forall _ l "rest" _ hnn (by linarith)
        rcases hfsi : fsiAux ((data.length : Nat) : Int) (dictSet l "rest" (1 - (l.map Prod.snd).sum)) with e | isplit
        · rw [hfsi] at hok
          exact absurd hok (by simp)
        · rw [hfsi] at hok
          obtain ⟨hinn, hisum⟩ := fsiAux_sum _ _ isplit (by positivity) hnnf
            (dictSet_ne_nil l "rest" _) hfsi
          exact splitInt_len name data seed isplit st ds st2 hinn (Or.inr hisum) hok
      · rw [if_neg hlt] at hok
        rcases hfsi : fsiAux ((data.length : Nat) : Int) l with e | isplit
        · rw [hfsi] at hok
          exact absurd hok (by simp)
        · rw [hfsi] at hok
          obtain ⟨hinn, hisum⟩ := fsiAux_sum _ _ isplit (by positivity) hnn hlne hfsi
          exact splitInt_len name data seed isplit st ds st2 hinn (Or.inr hisum) hok

/-- C2 witness: `split = {a: 1, b: 1}` over three records produces subsets
of sizes 1, 1 and 1 (the leftover `'rest'`), summing to the data length. -/
theorem C2_witness :
    (Dataset.node "d" none [Dataset.leaf "d.a" none [1], Dataset.leaf "d.b" none [2],
      Dataset.leaf "d.rest" none [3]] : Dataset Nat).len = ([1, 2, 3] : List Nat).length :=
  C2_theorem Nat "d" [1, 2, 3] (.ints [("a", 1), ("b", 1)]) none none 0
    (Dataset.node "d" none [Dataset.leaf "d.a" none [1], Dataset.leaf "d.b" none [2],
      Dataset.leaf "d.rest" none [3]]) 654583775
    (by simp only [SplitNonneg]; decide) (by simp only [RestSafe]; decide) rfl

/-- C3: the claim says that with `randomise` false each subset equals its
slice exactly.  The code violates it: `__init__` tests `'randomise' in
kwargs` (key presence, not truth), `_make_subset` always passes the
`randomise` keyword, and `_randomise_data` swallows the flag into `**kwargs`
— so every subset is shuffled unconditionally.  With `randomise=False` and
`split = {a: 3, b: 3}` over records 0..5, the subsets hold permutations
`[0, 2, 1]` and `[5, 3, 4]` of their slices `[0, 1, 2]` and `[3, 4, 5]`. -/
theorem C3_code_eval :
    mkDataset "d" [0, 1, 2, 3, 4, 5] (some (.ints [("a", 3), ("b", 3)])) (some false) none 0
      = .ok (Dataset.node "d" none
          [Dataset.leaf "d.a" none [0, 2, 1], Dataset.leaf "d.b" none [5, 3, 4]],
          1109335178)
    ∧ ([0, 2, 1] : List Nat) ≠ [0, 1, 2]
    ∧ ([5, 3, 4] : List Nat) ≠ [3, 4, 5]
    ∧ List.Perm ([0, 2, 1] : List Nat) [0, 1, 2]
    ∧ List.Perm ([5, 3, 4] : List Nat) [3, 4, 5] :=
  ⟨rfl, by decide, by decide, by decide, by decide⟩

/-- C7: the claim says the derived per-subset seed (`seed + sum(ord(c)) +
length`, stored as `142` for subset `a` here) makes splitting deterministic.
The derivation formula is implemented, but the seed is never fed to the
generator: `__init__` pops `seed` before `_randomise_data` runs, so subsets
are shuffled with the ambient global generator state.  Two constructions
from identical arguments (`seed=42`, `randomise=True`) under different
ambient states produce different record orders. -/
theorem C7_code_eval :
    mkDataset "d" [0, 1, 2, 3, 4, 5] (some (.ints [("a", 3), ("b", 3)])) (some true) (some 42) 0
      = .ok (Dataset.node "d" (some 42)
          [Dataset.leaf "d.a" (some 142) [0, 2, 1], Dataset.leaf "d.b" (some 143) [5, 3, 4]],
          1109335178)
    ∧ mkDataset "d" [0, 1, 2, 3, 4, 5] (some (.ints [("a", 3), ("b", 3)])) (some true) (some 42) 1
      = .ok (Dataset.node "d" (some 42)
          [Dataset.leaf "d.a" (some 142) [1, 0, 2], Dataset.leaf "d.b" (some 143) [4, 5, 3]],
          368800899)
    ∧ 42 + ordSum "a" + 3 = 142
    ∧ ([0, 2, 1] : List Nat) ≠ [1, 0, 2] :=
  ⟨rfl, rfl, by decide, by decide⟩

/-- C9 counterexample: with a user subset already named `'rest'`
(`split = {rest: 1, a: 1}` over four records, total `2 < 4`), the leftover
assignment `split['rest'] = 2` overwrites the user entry in place instead of
appending: the `rest` subset comes first, holds 2 records instead of the
leftover, and record 3 belongs to no subset at all. -/
theorem C9_counterexample :
    mkDataset "d" [0, 1, 2, 3] (some (.ints [("rest", 1), ("a", 1)])) none none 0
      = .ok (Dataset.node "d" none
          [Dataset.leaf "d.rest" none [0, 1], Dataset.leaf "d.a" none [2]], 654583775)
    ∧ (Dataset.node "d" none
        [Dataset.leaf "d.rest" none [0, 1], Dataset.leaf "d.a" none [2]] : Dataset Nat).records
        = [0, 1, 2]
    ∧ (3 : Nat) ∉ ([0, 1, 2] : List Nat)
    ∧ (([("rest", (1 : Int)), ("a", 1)].map Prod.snd).sum < (([0, 1, 2, 3] : List Nat).length : Int)) :=
  ⟨rfl, rfl, by decide, by decide⟩

/-- C9 (amended): when the split has nonnegative values, requests strictly
less than the data, and has no user entry named `'rest'`, an additional
subset named `<name>.rest` is appended after the named subsets and holds a
permutation of exactly the records the named subsets do not cover.  (The
permutation is forced by the unconditional per-subset shuffle, see C3.) -/
theorem C9_theorem (α : Type) :
    (∀ (name : String) (data : List α) (l : List (String × Int))
        (randomise : Option Bool) (seed : Option Int) (st : Nat)
        (ds : Dataset α) (st2 : Nat),
        (∀ p ∈ l, 0 ≤ p.2) → "rest" ∉ l.map Prod.fst →
        (l.map Prod.snd).sum < (data.length : Int) →
        mkDataset name data (some (.ints l)) randomise seed st = .ok (ds, st2) →
        ∃ named rsub, ds = .node name seed (named ++ [rsub])
          ∧ named.length = l.length
          ∧ Dataset.nameOf rsub = name ++ "." ++ "rest"
          ∧ List.Perm (Dataset.records rsub) (data.drop (Dataset.lenList named)))
    ∧ (∀ (name : String) (data : List α) (l : List (String × ℚ))
        (randomise : Option Bool) (seed : Option Int) (st : Nat)
        (ds : Dataset α) (st2 : Nat),
        l ≠ [] → (∀ p ∈ l, 0 ≤ p.2) → "rest" ∉ l.map Prod.fst →
        (l.map Prod.snd).sum < 1 →
        mkDataset name data (some (.floats l)) randomise seed st = .ok (ds, st2) →
        ∃ named rsub, ds = .node name seed (named ++ [rsub])
          ∧ named.length = l.length
          ∧ Dataset.nameOf rsub = name ++ "." ++ "rest"
          ∧ List.Perm (Dataset.records rsub) (data.drop (Dataset.lenList named))) := by
  constructor
  · intro name data l randomise seed st ds st2 hnn hrest hlt hok
    simp only [mkDataset] at hok
    rw [splitInt_add_rest name data seed l st hrest hlt] at hok
    exact splitInt_rest_last name data seed l _ st ds st2 hnn (by omega) (by omega) hok
  · intro name data l randomise seed st ds st2 hlne hnn hrest hlt hok
    simp only [mkDataset] at hok
    rw [if_neg (by simpa using hlne)] at hok
    simp only [splitFloat, floatSplitToInt] at hok
    rw [if_pos (le_of_lt hlt), if_pos hlt,
      dictSet_of_not_mem l "rest" _ hrest] at hok
    have hnnf : ∀ p ∈ l ++ [("rest", 1 - (l.map Prod.snd).sum)], 0 ≤ p.2 := by
      intro p hp
      rcases List.mem_append.1 hp with hp | hp
      · exact hnn p hp
      · simp only [List.mem_singleton] at hp
        subst hp
        simp only []
        linarith
    rcases hfsi : fsiAux ((data.length : Nat) : Int) (l ++ [("rest", 1 - (l.map Prod.snd).sum)]) with e | isplit
    · rw [hfsi] at hok
      exact absurd hok (by simp)
    · rw [hfsi] at hok
      obtain ⟨hinn, hisum⟩ := fsiAux_sum _ _ isplit (by positivity) hnnf (by simp) hfsi
      have hkeys : isplit.map Prod.fst = l.map Prod.fst ++ ["rest"] := by
        have := fsiAux_keys _ _ _ hfsi
        simpa using this
      obtain ⟨l₀, v, rfl, hl₀⟩ := eq_append_single_of_map_fst isplit _ _ hkeys
      have hlen₀ : l₀.length = l.length := by
        have := congrArg List.length hl₀
        simpa using this
      have hnn₀ : ∀ p ∈ l₀, 0 ≤ p.2 := fun p hp => hinn p (List.mem_append_left _ hp)
      have hv : 0 ≤ v := by
        have := hinn ("rest", v) (List.mem_append_right _ (List.mem_singleton_self _))
        simpa using this
      have hsum₀ : (l₀.map Prod.snd).sum + v = (data.length : Int) := by
        simpa using hisum
      obtain ⟨named, rsub, h1, h2, h3, h4⟩ :=
        splitInt_rest_last name data seed l₀ v st ds st2 hnn₀ hv hsum₀ hok
      exact ⟨named, rsub, h1, h2.trans hlen₀, h3, h4⟩

/-- C9 witness: `split = {a: 1}` over three records appends a `d.rest`
subset holding (a permutation of) the two leftover records. -/
theorem C9_witness :
    ∃ named rsub,
      (Dataset.node "d" none [Dataset.leaf "d.a" none [5], Dataset.leaf "d.rest" none [7, 6]]
          : Dataset Nat)
        = .node "d" none (named ++ [rsub])
      ∧ named.length = ([("a", (1 : Int))] : List (String × Int)).length
      ∧ Dataset.nameOf rsub = "d" ++ "." ++ "rest"
      ∧ List.Perm (Dataset.records rsub) (([5, 6, 7] : List Nat).drop (Dataset.lenList named)) :=
  (C9_theorem Nat).1 "d" [5, 6, 7] [("a", 1)] none none 0 _ 654583775
    (by decide) (by decide) (by decide) rfl

/-- C10: on a superset whose every subset is shorter than the index, the
subset scan of `__getitem__` falls through and the method returns `None`
rather than raising; on a plain dataset an out-of-range index raises the
list's `IndexError`. -/
theorem C10_theorem (α : Type) :
    (∀ (name : String) (seed : Option Int) (subs : List (Dataset α)) (idx : Nat),
        (∀ d ∈ subs, Dataset.len d ≤ idx) →
        (Dataset.node name seed subs).getitem idx = .ok none)
    ∧ (∀ (name : String) (seed : Option Int) (data : List α) (idx : Nat),
        data.length ≤ idx →
        (Dataset.leaf name seed data).getitem idx = .error .indexError) := by
  constructor
  · intro name seed subs idx h
    simp only [Dataset.getitem]
    induction subs with
    | nil => simp [Dataset.getitemList]
    | cons d ds ih =>
      simp only [Dataset.getitemList]
      rw [if_pos (h d (List.mem_cons_self _ _))]
      exact ih fun d' hd' => h d' (List.mem_cons_of_mem _ hd')
  · intro name seed data idx h
    simp only [Dataset.getitem]
    rw [dif_neg (by omega)]

/-- C10 witness: index 5 exceeds both subset lengths of a superset and
yields `None`; index 7 on a plain two-record dataset raises `IndexError`. -/
theorem C10_witness :
    (Dataset.node "d" none [Dataset.leaf "d.a" none [1, 2], Dataset.leaf "d.b" none [3]]
        : Dataset Nat).getitem 5 = .ok none
    ∧ (Dataset.leaf "e" none [1, 2] : Dataset Nat).getitem 7 = .error .indexError :=
  ⟨(C10_theorem Nat).1 "d" none [Dataset.leaf "d.a" none [1, 2], Dataset.leaf "d.b" none [3]] 5
      (by decide),
   (C10_theorem Nat).2 "e" none [1, 2] 7 (by decide)⟩

/-- C8 counterexample: `split = {a: 1.0, b: 0.0}` sums to exactly 1, so both
assertions pass, yet construction does not complete: with no leftover to
absorb, `_float_split_to_int` reaches the final zero-valued entry where
`sum(subset_sizes[i:]) == 0` and raises `ZeroDivisionError`. -/
theorem C8_counterexample :
    mkDataset "d" [0, 1] (some (.floats [("a", 1), ("b", 0)])) none none 0
      = .error .zeroDivisionError
    ∧ (([("a", (1 : ℚ)), ("b", 0)].map Prod.snd).sum ≤ 1) :=
  ⟨by norm_num [mkDataset, splitFloat, floatSplitToInt, fsiAux, pyTrunc], by norm_num⟩

/-- C8 (amended): a float split totalling more than 1, or an integer split
totalling more than `len(data)`, raises an `AssertionError` whose message
begins with `'Not enough data! '`; within the bounds the assertions pass and
construction completes — in the integer case always, in the float case
provided every value is positive (a zero suffix sum would instead raise
`ZeroDivisionError`, as the counterexample shows). -/
theorem C8_theorem (α : Type) :
    (∀ (name : String) (data : List α) (l : List (String × ℚ))
        (randomise : Option Bool) (seed : Option Int) (st : Nat),
        1 < (l.map Prod.snd).sum →
        ∃ suffix, mkDataset name data (some (.floats l)) randomise seed st
          = .error (.assertionError ("Not enough data! " ++ suffix)))
    ∧ (∀ (name : String) (data : List α) (l : List (String × Int))
        (randomise : Option Bool) (seed : Option Int) (st : Nat),
        (data.length : Int) < (l.map Prod.snd).sum →
        ∃ suffix, mkDataset name data (some (.ints l)) randomise seed st
          = .error (.assertionError ("Not enough data! " ++ suffix)))
    ∧ (∀ (name : String) (data : List α) (l : List (String × Int))
        (randomise : Option Bool) (seed : Option Int) (st : Nat),
        (l.map Prod.snd).sum ≤ (data.length : Int) →
        ∃ r, mkDataset name data (some (.ints l)) randomise seed st = .ok r)
    ∧ (∀ (name : String) (data : List α) (l : List (String × ℚ))
        (randomise : Option Bool) (seed : Option Int) (st : Nat),
        (∀ p ∈ l, 0 < p.2) → (l.map Prod.snd).sum ≤ 1 →
        ∃ r, mkDataset name data (some (.floats l)) randomise seed st = .ok r) := by
  refine ⟨?_, ?_, ?_, ?_⟩
  · intro name data l randomise seed st hgt
    have hlne : l ≠ [] := by
      intro h
      rw [h] at hgt
      norm_num at hgt
    simp only [mkDataset]
    rw [if_neg (by simpa using hlne)]
    rw [splitFloat, if_neg (by linarith)]
    exact ⟨_, rfl⟩
  · intro name data l randomise seed st hgt
    simp only [mkDataset]
    rw [splitInt, if_neg (by omega)]
    exact ⟨_, rfl⟩
  · intro name data l randomise seed st hle
    simp only [mkDataset]
    exact splitInt_isOk name data seed l st hle
  · intro name data l randomise seed st hpos hle
    by_cases hemp : l.isEmpty
    · simp only [mkDataset]
      rw [if_pos hemp]
      exact splitInt_isOk name data seed [] st (by simp)
    · simp only [mkDataset]
      rw [if_neg hemp]
      simp only [splitFloat, floatSplitToInt]
      rw [if_pos hle]
      have hlne : l ≠ [] := fun h => hemp (by simp [h])
      by_cases hlt : (l.map Prod.snd).sum < 1
      · rw [if_pos hlt]
        have hposf : ∀ p ∈ dictSet l "rest" (1 - (l.map Prod.snd).sum), 0 < p.2 :=
          dictSet_forall _ l "rest" _ hpos (by linarith)
        obtain ⟨isplit, hfsi⟩ := fsiAux_isOk_of_pos _ ((data.length : Nat) : Int) hposf
        rw [hfsi]
        obtain ⟨-, hisum⟩ := fsiAux_sum _ _ isplit (by positivity)
          (fun p hp => le_of_lt (hposf p hp)) (dictSet_ne_nil l "rest" _) hfsi
        exact splitInt_isOk name data seed isplit st (by omega)
      · rw [if_neg hlt]
        obtain ⟨isplit, hfsi⟩ := fsiAux_isOk_of_pos _ ((data.length : Nat) : Int) hpos
        rw [hfsi]
        obtain ⟨-, hisum⟩ := fsiAux_sum _ _ isplit (by positivity)
          (fun p hp => le_of_lt (hpos p hp)) hlne hfsi
        exact splitInt_isOk name data seed isplit st (by omega)

/-- C8 witness: a float split totalling 2 raises the prefixed assertion
message; an integer split totalling 1 over two records completes. -/
theorem C8_witness :
    (∃ suffix, mkDataset "d" [0, 1] (some (.floats [("a", 2)])) none none 0
      = .error (.assertionError ("Not enough data! " ++ suffix)))
    ∧ (∃ r, mkDataset "d" [0, 1] (some (.ints [("a", 1)])) none none 0 = .ok r) :=
  ⟨(C8_theorem Nat).1 "d" [0, 1] [("a", 2)] none none 0 (by norm_num),
   (C8_theorem Nat).2.2.1 "d" [0, 1] [("a", 1)] none none 0 (by norm_num)⟩

/-! ## Claim theorems: training loop -/

/-- With no interrupt scheduled from invocation `k` on and batches numbered
at least 1, the batch loop appends its canonical events, two hook calls per
batch. -/
theorem runBatchList_clean (sched : Nat → Bool) (e : Nat) (bs : List Nat)
    (tr : List Ev) (k : Nat)
    (hb : ∀ b ∈ bs, 1 ≤ b) (h : ∀ j, k ≤ j → sched j = false) :
    runBatchList sched 1 e bs (tr, k)
      = ((tr ++ batchEvs e bs, k + 2 * bs.length), false) := by
  induction bs generalizing tr k with
  | nil => simp [runBatchList, batchEvs]
  | cons b bs ih =>
    have hb1 : ¬ b < 1 := by
      have := hb b (List.mem_cons_self _ _)
      omega
    simp only [runBatchList, callHook, if_neg hb1]
    rw [h k (le_refl k), h (k + 1) (by omega)]
    simp only [Bool.false_eq_true, if_false]
    rw [ih _ _ (fun b' hb' => hb b' (List.mem_cons_of_mem _ hb'))
      (fun j hj => h j (by omega))]
    simp only [batchEvs, Prod.mk.injEq, List.append_assoc, List.singleton_append,
      List.cons_append, List.nil_append, List.length_cons, and_true, true_and]
    omega

/-- With no interrupt scheduled from invocation `k` on, the epoch loop
appends its canonical events, `2 + 2 * nB` hook calls per epoch. -/
theorem runEpochList_clean (sched : Nat → Bool) (nB : Nat) (es : List Nat)
    (tr : List Ev) (k : Nat) (h : ∀ j, k ≤ j → sched j = false) :
    runEpochList sched 1 nB es (tr, k)
      = ((tr ++ epochEvs nB es, k + es.length * (2 + 2 * nB)), false) := by
  induction es generalizing tr k with
  | nil => simp [runEpochList, epochEvs]
  | cons e es ih =>
    simp only [runEpochList, callHook]
    rw [h k (le_refl k)]
    simp only [Bool.false_eq_true, if_false]
    rw [runBatchList_clean sched e (List.range' 1 nB) _ (k + 1)
      (fun b hb => (List.mem_range'_1.1 hb).1) (fun j hj => h j (by omega))]
    simp only [List.length_range' 1 1 nB]
    rw [h (k + 1 + 2 * nB) (by omega)]
    simp only [Bool.false_eq_true, if_false]
    rw [ih _ _ (fun j hj => h j (by omega))]
    simp only [epochEvs, Prod.mk.injEq, List.append_assoc, List.singleton_append,
      List.cons_append, List.nil_append, List.length_cons, and_true, true_and]
    ring

/-- An uninterrupted run with default start parameters produces exactly the
canonical trace and completes. -/
theorem defaultTrainingLoop_clean (sched : Nat → Bool) (nE nB : Nat)
    (h : ∀ j, sched j = false) :
    defaultTrainingLoop sched nE nB 1 1
      = ((canonicalTrace nE nB, 1 + nE * (2 + 2 * nB) + 1), false) := by
  simp only [defaultTrainingLoop, callHook, and_self, if_pos trivial]
  rw [h 0]
  simp only [Bool.false_eq_true, if_false, List.nil_append]
  rw [show nE + 1 - 1 = nE by omega]
  rw [runEpochList_clean sched nB (List.range' 1 nE) [Ev.startTrain] 1
    (fun j hj => h j)]
  simp only [List.length_range' 1 1 nE]
  rw [h (1 + nE * (2 + 2 * nB))]
  simp only [Bool.false_eq_true, if_false]
  simp [canonicalTrace, List.append_assoc]

/-- C5: with the default start parameters and no interrupt, the lifecycle
hooks are invoked in exactly the specified order — `on_start_of_training`;
then per epoch `on_start_of_epoch`, per batch `on_start_of_batch` and
`on_end_of_batch` in loader order, then `on_end_of_epoch`; finally
`on_end_of_training` — and the run completes. -/
theorem C5_theorem (nE nB : Nat) :
    (defaultTrainingLoop (fun _ => false) nE nB 1 1).1.1 = canonicalTrace nE nB
    ∧ (defaultTrainingLoop (fun _ => false) nE nB 1 1).2 = false := by
  rw [defaultTrainingLoop_clean (fun _ => false) nE nB (fun j => rfl)]
  exact ⟨rfl, rfl⟩

/-- C4 counterexample: the claim says a `KeyboardInterrupt` makes the loop
exit with no further batches or epochs.  In a run of 1 epoch over 2 batches
with the interrupt arriving inside batch 1's `on_start_of_batch` (invocation
counter 2), the handler runs and then batch 2, the epoch end and the
training end all still execute. -/
theorem C4_counterexample :
    processesWorkAfterInterrupt (defaultTrainingLoop (fun k => k == 2) 1 2 1 1).1.1 = true
    ∧ (defaultTrainingLoop (fun k => k == 2) 1 2 1 1).1.1
      = [Ev.startTrain, Ev.startEpoch 1, Ev.startBatch 1 1, Ev.kbHook 1 1,
         Ev.startBatch 1 2, Ev.endBatch 1 2, Ev.endEpoch 1, Ev.endTrain] :=
  ⟨by decide, by decide⟩

/-- The batch loop only ever appends to the trace. -/
theorem runBatchList_trace_extends (sched : Nat → Bool) (sab e : Nat) (bs : List Nat)
    (tr : List Ev) (k : Nat) (out : TState) (fb : Bool)
    (h : runBatchList sched sab e bs (tr, k) = (out, fb)) :
    ∃ ext, out.1 = tr ++ ext := by
  induction bs generalizing tr k out fb with
  | nil =>
    simp only [runBatchList, Prod.mk.injEq] at h
    exact ⟨[], by rw [← h.1]; simp⟩
  | cons b bs ih =>
    simp only [runBatchList, callHook] at h
    by_cases hb : b < sab
    · rw [if_pos hb] at h
      exact ih tr k out fb h
    rw [if_neg hb] at h
    by_cases h1 : sched k = true
    · rw [if_pos h1] at h
      by_cases h2 : sched (k + 1) = true
      · rw [if_pos h2] at h
        simp only [Prod.mk.injEq] at h
        exact ⟨[Ev.startBatch e b, Ev.kbHook e b], by rw [← h.1]; simp⟩
      · rw [if_neg h2] at h
        obtain ⟨ext, hext⟩ := ih _ _ _ _ h
        exact ⟨Ev.startBatch e b :: Ev.kbHook e b :: ext, by rw [hext]; simp⟩
    · rw [if_neg h1] at h
      by_cases h2 : sched (k + 1) = true
      · rw [if_pos h2] at h
        by_cases h3 : sched (k + 1 + 1) = true
        · rw [if_pos h3] at h
          simp only [Prod.mk.injEq] at h
          exact ⟨[Ev.startBatch e b, Ev.endBatch e b, Ev.kbHook e b], by rw [← h.1]; simp⟩
        · rw [if_neg h3] at h
          obtain ⟨ext, hext⟩ := ih _ _ _ _ h
          exact ⟨Ev.startBatch e b :: Ev.endBatch e b :: Ev.kbHook e b :: ext, by
            rw [hext]; simp⟩
      · rw [if_neg h2] at h
        obtain ⟨ext, hext⟩ := ih _ _ _ _ h
        exact ⟨Ev.startBatch e b :: Ev.endBatch e b :: ext, by rw [hext]; simp⟩

/-- The epoch loop only ever appends to the trace. -/
theorem runEpochList_trace_extends (sched : Nat → Bool) (sab nB : Nat) (es : List Nat)
    (tr : List Ev) (k : Nat) (out : TState) (fb : Bool)
    (h : runEpochList sched sab nB es (tr, k) = (out, fb)) :
    ∃ ext, out.1 = tr ++ ext := by
  induction es generalizing tr k out fb with
  | nil =>
    simp only [runEpochList, Prod.mk.injEq] at h
    exact ⟨[], by rw [← h.1]; simp⟩
  | cons e es ih =>
    simp only [runEpochList, callHook] at h
    by_cases h1 : sched k = true
    · rw [if_pos h1] at h
      by_cases h2 : sched (k + 1) = true
      · rw [if_pos h2] at h
        simp only [Prod.mk.injEq] at h
        exact ⟨[Ev.startEpoch e, Ev.kbHook e 0], by rw [← h.1]; simp⟩
      · rw [if_neg h2] at h
        obtain ⟨ext, hext⟩ := ih _ _ _ _ h
        exact ⟨Ev.startEpoch e :: Ev.kbHook e 0 :: ext, by rw [hext]; simp⟩
    · rw [if_neg h1] at h
      obtain ⟨ext0, hext0⟩ := runBatchList_trace_extends sched sab e (List.range' 1 nB)
        (tr ++ [Ev.startEpoch e]) (k + 1)
        (runBatchList sched sab e (List.range' 1 nB) (tr ++ [Ev.startEpoch e], k + 1)).1
        (runBatchList sched sab e (List.range' 1 nB) (tr ++ [Ev.startEpoch e], k + 1)).2
        Prod.mk.eta
      by_cases h2 : (runBatchList sched sab e (List.range' 1 nB)
          (tr ++ [Ev.startEpoch e], k + 1)).2 = true
      · rw [if_pos h2] at h
        by_cases h3 : sched (runBatchList sched sab e (List.range' 1 nB)
            (tr ++ [Ev.startEpoch e], k + 1)).1.2 = true
        · rw [if_pos h3] at h
          simp only [Prod.mk.injEq] at h
          exact ⟨Ev.startEpoch e :: (ext0 ++ [Ev.kbHook e 0]), by
            rw [← h.1]; simp [hext0]⟩
        · rw [if_neg h3] at h
          obtain ⟨ext, hext⟩ := ih _ _ _ _ h
          exact ⟨Ev.startEpoch e :: (ext0 ++ Ev.kbHook e 0 :: ext), by
            rw [hext, hext0]; simp⟩
      · rw [if_neg h2] at h
        by_cases h3 : sched (runBatchList sched sab e (List.range' 1 nB)
            (tr ++ [Ev.startEpoch e], k + 1)).1.2 = true
        · rw [if_pos h3] at h
          by_cases h4 : sched ((runBatchList sched sab e (List.range' 1 nB)
              (tr ++ [Ev.startEpoch e], k + 1)).1.2 + 1) = true
          · rw [if_pos h4] at h
            simp only [Prod.mk.injEq] at h
            exact ⟨Ev.startEpoch e :: (ext0 ++ [Ev.endEpoch e, Ev.kbHook e 0]), by
              rw [← h.1]; simp [hext0]⟩
          · rw [if_neg h4] at h
            obtain ⟨ext, hext⟩ := ih _ _ _ _ h
            exact ⟨Ev.startEpoch e :: (ext0 ++ Ev.endEpoch e :: Ev.kbHook e 0 :: ext), by
              rw [hext, hext0]; simp⟩
        · rw [if_neg h3] at h
          obtain ⟨ext, hext⟩ := ih _ _ _ _ h
          exact ⟨Ev.startEpoch e :: (ext0 ++ Ev.endEpoch e :: ext), by
            rw [hext, hext0]; simp⟩

/-- An uncaught interrupt escaping the epoch loop always comes from an
`on_keyboard_interrupt` invocation: the final trace ends with the handler
event, and the schedule fired during precisely that invocation. -/
theorem runEpochList_propagate (sched : Nat → Bool) (sab nB : Nat) (es : List Nat)
    (tr : List Ev) (k : Nat) (out : TState)
    (h : runEpochList sched sab nB es (tr, k) = (out, true)) :
    ∃ tr2 e2, out.1 = tr2 ++ [Ev.kbHook e2 0] ∧ sched (out.2 - 1) = true := by
  induction es generalizing tr k out with
  | nil =>
    simp only [runEpochList, Prod.mk.injEq] at h
    exact absurd h.2 (by simp)
  | cons e es ih =>
    simp only [runEpochList, callHook] at h
    by_cases h1 : sched k = true
    · rw [if_pos h1] at h
      by_cases h2 : sched (k + 1) = true
      · rw [if_pos h2] at h
        simp only [Prod.mk.injEq] at h
        refine ⟨tr ++ [Ev.startEpoch e], e, by rw [← h.1], ?_⟩
        rw [← h.1]
        simpa using h2
      · rw [if_neg h2] at h
        exact ih _ _ _ h
    · rw [if_neg h1] at h
      by_cases h2 : (runBatchList sched sab e (List.range' 1 nB)
          (tr ++ [Ev.startEpoch e], k + 1)).2 = true
      · rw [if_pos h2] at h
        by_cases h3 : sched (runBatchList sched sab e (List.range' 1 nB)
            (tr ++ [Ev.startEpoch e], k + 1)).1.2 = true
        · rw [if_pos h3] at h
          simp only [Prod.mk.injEq] at h
          refine ⟨(runBatchList sched sab e (List.range' 1 nB)
              (tr ++ [Ev.startEpoch e], k + 1)).1.1, e, by rw [← h.1], ?_⟩
          rw [← h.1]
          simpa using h3
        · rw [if_neg h3] at h
          exact ih _ _ _ h
      · rw [if_neg h2] at h
        by_cases h3 : sched (runBatchList sched sab e (List.range' 1 nB)
            (tr ++ [Ev.startEpoch e], k + 1)).1.2 = true
        · rw [if_pos h3] at h
          by_cases h4 : sched ((runBatchList sched sab e (List.range' 1 nB)
              (tr ++ [Ev.startEpoch e], k + 1)).1.2 + 1) = true
          · rw [if_pos h4] at h
            simp only [Prod.mk.injEq] at h
            refine ⟨(runBatchList sched sab e (List.range' 1 nB)
                (tr ++ [Ev.startEpoch e], k + 1)).1.1 ++ [Ev.endEpoch e], e,
              by rw [← h.1], ?_⟩
            rw [← h.1]
            simpa using h4
          · rw [if_neg h4] at h
            exact ih _ _ _ h
        · rw [if_neg h3] at h
          exact ih _ _ _ h

/-- When no uncaught interrupt escapes the epoch loop, every epoch is
entered: its `on_start_of_epoch` invocation is in the trace. -/
theorem runEpochList_complete (sched : Nat → Bool) (sab nB : Nat) (es : List Nat)
    (tr : List Ev) (k : Nat) (out : TState)
    (h : runEpochList sched sab nB es (tr, k) = (out, false)) :
    ∀ e ∈ es, Ev.startEpoch e ∈ out.1 := by
  induction es generalizing tr k out with
  | nil => simp
  | cons e es ih =>
    have hhead : ∀ (tr0 : List Ev) (k0 : Nat),
        runEpochList sched sab nB es (tr0, k0) = (out, false) →
        (Ev.startEpoch e ∈ tr0) →
        ∀ e2 ∈ e :: es, Ev.startEpoch e2 ∈ out.1 := by
      intro tr0 k0 h0 hmem e2 he2
      rcases List.mem_cons.1 he2 with rfl | he2
      · obtain ⟨ext, hext⟩ := runEpochList_trace_extends sched sab nB es tr0 k0 out false h0
        rw [hext]
        exact List.mem_append_left _ hmem
      · exact ih _ _ _ h0 e2 he2
    simp only [runEpochList, callHook] at h
    by_cases h1 : sched k = true
    · rw [if_pos h1] at h
      by_cases h2 : sched (k + 1) = true
      · rw [if_pos h2] at h
        exact absurd h (by simp)
      · rw [if_neg h2] at h
        exact hhead _ _ h (by simp)
    · rw [if_neg h1] at h
      obtain ⟨ext0, hext0⟩ := runBatchList_trace_extends sched sab e (List.range' 1 nB)
        (tr ++ [Ev.startEpoch e]) (k + 1)
        (runBatchList sched sab e (List.range' 1 nB) (tr ++ [Ev.startEpoch e], k + 1)).1
        (runBatchList sched sab e (List.range' 1 nB) (tr ++ [Ev.startEpoch e], k + 1)).2
        Prod.mk.eta
      have hmem0 : Ev.startEpoch e ∈ (runBatchList sched sab e (List.range' 1 nB)
          (tr ++ [Ev.startEpoch e], k + 1)).1.1 := by
        rw [hext0]
        simp
      by_cases h2 : (runBatchList sched sab e (List.range' 1 nB)
          (tr ++ [Ev.startEpoch e], k + 1)).2 = true
      · rw [if_pos h2] at h
        by_cases h3 : sched (runBatchList sched sab e (List.range' 1 nB)
            (tr ++ [Ev.startEpoch e], k + 1)).1.2 = true
        · rw [if_pos h3] at h
          exact absurd h (by simp)
        · rw [if_neg h3] at h
          exact hhead _ _ h (by simp [hmem0])
      · rw [if_neg h2] at h
        by_cases h3 : sched (runBatchList sched sab e (List.range' 1 nB)
            (tr ++ [Ev.startEpoch e], k + 1)).1.2 = true
        · rw [if_pos h3] at h
          by_cases h4 : sched ((runBatchList sched sab e (List.range' 1 nB)
              (tr ++ [Ev.startEpoch e], k + 1)).1.2 + 1) = true
          · rw [if_pos h4] at h
            exact absurd h (by simp)
          · rw [if_neg h4] at h
            exact hhead _ _ h (by simp [hmem0])
        · rw [if_neg h3] at h
          exact hhead _ _ h (by simp [hmem0])

/-- C4 (amended): for every interrupt schedule, an interrupt inside a
batch's hooks invokes `on_keyboard_interrupt(epoch, batch)` and the batch
loop then resumes with the next batch (parts 1-2), propagating to the
epoch-level handler only when that handler invocation itself raises
(parts 3-4); an interrupt at epoch level — in `on_start_of_epoch`,
propagated from a batch-level handler, or in `on_end_of_epoch` — invokes
`on_keyboard_interrupt(epoch)` and the epoch loop resumes with the next
epoch (parts 5, 7, 9), escaping the loop only when that invocation itself
raises (parts 6, 8, 10); any uncaught escape ends the trace with the
raising handler invocation (part 11), and when no escape happens every
epoch's `on_start_of_epoch` runs (part 12). -/
theorem C4_theorem :
    (∀ (sched : Nat → Bool) (sab e b : Nat) (bs : List Nat) (tr : List Ev) (k : Nat),
      ¬ b < sab → sched k = true → sched (k + 1) = false →
      runBatchList sched sab e (b :: bs) (tr, k)
        = runBatchList sched sab e bs (tr ++ [Ev.startBatch e b, Ev.kbHook e b], k + 2))
    ∧ (∀ (sched : Nat → Bool) (sab e b : Nat) (bs : List Nat) (tr : List Ev) (k : Nat),
      ¬ b < sab → sched k = false → sched (k + 1) = true → sched (k + 2) = false →
      runBatchList sched sab e (b :: bs) (tr, k)
        = runBatchList sched sab e bs
            (tr ++ [Ev.startBatch e b, Ev.endBatch e b, Ev.kbHook e b], k + 3))
    ∧ (∀ (sched : Nat → Bool) (sab e b : Nat) (bs : List Nat) (tr : List Ev) (k : Nat),
      ¬ b < sab → sched k = true → sched (k + 1) = true →
      runBatchList sched sab e (b :: bs) (tr, k)
        = ((tr ++ [Ev.startBatch e b, Ev.kbHook e b], k + 2), true))
    ∧ (∀ (sched : Nat → Bool) (sab e b : Nat) (bs : List Nat) (tr : List Ev) (k : Nat),
      ¬ b < sab → sched k = false → sched (k + 1) = true → sched (k + 2) = true →
      runBatchList sched sab e (b :: bs) (tr, k)
        = ((tr ++ [Ev.startBatch e b, Ev.endBatch e b, Ev.kbHook e b], k + 3), true))
    ∧ (∀ (sched : Nat → Bool) (sab nB e : Nat) (es : List Nat) (tr : List Ev) (k : Nat),
      sched k = true → sched (k + 1) = false →
      runEpochList sched sab nB (e :: es) (tr, k)
        = runEpochList sched sab nB es (tr ++ [Ev.startEpoch e, Ev.kbHook e 0], k + 2))
    ∧ (∀ (sched : Nat → Bool) (sab nB e : Nat) (es : List Nat) (tr : List Ev) (k : Nat),
      sched k = true → sched (k + 1) = true →
      runEpochList sched sab nB (e :: es) (tr, k)
        = ((tr ++ [Ev.startEpoch e, Ev.kbHook e 0], k + 2), true))
    ∧ (∀ (sched : Nat → Bool) (sab nB e : Nat) (es : List Nat) (tr tr2 : List Ev) (k k2 : Nat),
      sched k = false →
      runBatchList sched sab e (List.range' 1 nB) (tr ++ [Ev.startEpoch e], k + 1)
        = ((tr2, k2), true) →
      sched k2 = false →
      runEpochList sched sab nB (e :: es) (tr, k)
        = runEpochList sched sab nB es (tr2 ++ [Ev.kbHook e 0], k2 + 1))
    ∧ (∀ (sched : Nat → Bool) (sab nB e : Nat) (es : List Nat) (tr tr2 : List Ev) (k k2 : Nat),
      sched k = false →
      runBatchList sched sab e (List.range' 1 nB) (tr ++ [Ev.startEpoch e], k + 1)
        = ((tr2, k2), true) →
      sched k2 = true →
      runEpochList sched sab nB (e :: es) (tr, k)
        = ((tr2 ++ [Ev.kbHook e 0], k2 + 1), true))
    ∧ (∀ (sched : Nat → Bool) (sab nB e : Nat) (es : List Nat) (tr tr2 : List Ev) (k k2 : Nat),
      sched k = false →
      runBatchList sched sab e (List.range' 1 nB) (tr ++ [Ev.startEpoch e], k + 1)
        = ((tr2, k2), false) →
      sched k2 = true → sched (k2 + 1) = false →
      runEpochList sched sab nB (e :: es) (tr, k)
        = runEpochList sched sab nB es (tr2 ++ [Ev.endEpoch e, Ev.kbHook e 0], k2 + 2))
    ∧ (∀ (sched : Nat → Bool) (sab nB e : Nat) (es : List Nat) (tr tr2 : List Ev) (k k2 : Nat),
      sched k = false →
      runBatchList sched sab e (List.range' 1 nB) (tr ++ [Ev.startEpoch e], k + 1)
        = ((tr2, k2), false) →
      sched k2 = true → sched (k2 + 1) = true →
      runEpochList sched sab nB (e :: es) (tr, k)
        = ((tr2 ++ [Ev.endEpoch e, Ev.kbHook e 0], k2 + 2), true))
    ∧ (∀ (sched : Nat → Bool) (sab nB : Nat) (es : List Nat) (tr : List Ev) (k : Nat)
        (out : TState),
      runEpochList sched sab nB es (tr, k) = (out, true) →
      ∃ tr2 e2, out.1 = tr2 ++ [Ev.kbHook e2 0] ∧ sched (out.2 - 1) = true)
    ∧ (∀ (sched : Nat → Bool) (sab nB : Nat) (es : List Nat) (tr : List Ev) (k : Nat)
        (out : TState),
      runEpochList sched sab nB es (tr, k) = (out, false) →
      ∀ e ∈ es, Ev.startEpoch e ∈ out.1) := by
  refine ⟨?_, ?_, ?_, ?_, ?_, ?_, ?_, ?_, ?_, ?_, ?_, ?_⟩
  · intro sched sab e b bs tr k hb h1 h2
    simp only [runBatchList, callHook, if_neg hb]
    rw [if_pos h1, if_neg (by simp [h2])]
    simp [List.append_assoc]
  · intro sched sab e b bs tr k hb h1 h2 h3
    simp only [runBatchList, callHook, if_neg hb]
    rw [if_neg (by simp [h1]), if_pos h2, if_neg (by simp [h3])]
    simp [List.append_assoc]
  · intro sched sab e b bs tr k hb h1 h2
    simp only [runBatchList, callHook, if_neg hb]
    rw [if_pos h1, if_pos h2]
    simp [List.append_assoc]
  · intro sched sab e b bs tr k hb h1 h2 h3
    simp only [runBatchList, callHook, if_neg hb]
    rw [if_neg (by simp [h1]), if_pos h2, if_pos h3]
    simp [List.append_assoc]
  · intro sched sab nB e es tr k h1 h2
    simp only [runEpochList, callHook]
    rw [if_pos h1, if_neg (by simp [h2])]
    simp [List.append_assoc]
  · intro sched sab nB e es tr k h1 h2
    simp only [runEpochList, callHook]
    rw [if_pos h1, if_pos h2]
    simp [List.append_assoc]
  · intro sched sab nB e es tr tr2 k k2 h1 hrb h2
    simp only [runEpochList, callHook]
    rw [if_neg (by simp [h1]), hrb]
    simp only []
    rw [if_pos trivial, if_neg (by simp [h2])]
  · intro sched sab nB e es tr tr2 k k2 h1 hrb h2
    simp only [runEpochList, callHook]
    rw [if_neg (by simp [h1]), hrb]
    simp only []
    rw [if_pos trivial, if_pos h2]
  · intro sched sab nB e es tr tr2 k k2 h1 hrb h2 h3
    simp only [runEpochList, callHook]
    rw [if_neg (by simp [h1]), hrb]
    simp only []
    rw [if_neg (by simp), if_pos h2, if_neg (by simp [h3])]
    simp [List.append_assoc]
  · intro sched sab nB e es tr tr2 k k2 h1 hrb h2 h3
    simp only [runEpochList, callHook]
    rw [if_neg (by simp [h1]), hrb]
    simp only []
    rw [if_neg (by simp), if_pos h2, if_pos h3]
    simp [List.append_assoc]
  · intro sched sab nB es tr k out h
    exact runEpochList_propagate sched sab nB es tr k out h
  · intro sched sab nB es tr k out h
    exact runEpochList_complete sched sab nB es tr k out h

/-- C4 witness: with the schedule that fires at invocation counter 2 —
batch 1 of epoch 1's `on_start_of_batch` — the batch loop resumes with
batch 2 (part 1); with the schedule firing at the first `on_start_of_epoch`
of a later state the epoch loop resumes with the next epoch (part 5); a
two-epoch run under the counter-2 schedule escapes nowhere and both
epochs are entered (part 12). -/
theorem C4_witness :
    runBatchList (fun k => k == 2) 1 1 (1 :: [2]) ([Ev.startTrain, Ev.startEpoch 1], 2)
      = runBatchList (fun k => k == 2) 1 1 [2]
          ([Ev.startTrain, Ev.startEpoch 1] ++ [Ev.startBatch 1 1, Ev.kbHook 1 1], 2 + 2)
    ∧ runEpochList (fun k => k == 2) 1 3 (5 :: [6]) ([], 2)
      = runEpochList (fun k => k == 2) 1 3 [6]
          ([] ++ [Ev.startEpoch 5, Ev.kbHook 5 0], 2 + 2)
    ∧ (∀ e ∈ [1, 2], Ev.startEpoch e ∈
        ([Ev.startTrain, Ev.startEpoch 1, Ev.startBatch 1 1, Ev.kbHook 1 1,
          Ev.startBatch 1 2, Ev.endBatch 1 2, Ev.endEpoch 1, Ev.startEpoch 2,
          Ev.startBatch 2 1, Ev.endBatch 2 1, Ev.startBatch 2 2, Ev.endBatch 2 2,
          Ev.endEpoch 2] : List Ev)) :=
  ⟨C4_theorem.1 (fun k => k == 2) 1 1 1 [2] [Ev.startTrain, Ev.startEpoch 1] 2
      (by decide) rfl rfl,
   C4_theorem.2.2.2.2.1 (fun k => k == 2) 1 3 5 [6] [] 2 rfl rfl,
   C4_theorem.2.2.2.2.2.2.2.2.2.2.2 (fun k => k == 2) 1 2 [1, 2] [Ev.startTrain] 1
     (([Ev.startTrain, Ev.startEpoch 1, Ev.startBatch 1 1, Ev.kbHook 1 1,
        Ev.startBatch 1 2, Ev.endBatch 1 2, Ev.endEpoch 1, Ev.startEpoch 2,
        Ev.startBatch 2 1, Ev.endBatch 2 1, Ev.startBatch 2 2, Ev.endBatch 2 2,
        Ev.endEpoch 2], 13) : TState) rfl⟩

/-- Positional filling does not change the attribute names. -/
theorem fillArgs_keys (d : List (String × Obj)) (args : List Obj) :
    (fillArgs d args).map Prod.fst = d.map Prod.fst := by
  induction d generalizing args with
  | nil => cases args <;> simp [fillArgs]
  | cons p t ih =>
    obtain ⟨k, v⟩ := p
    cases args with
    | nil => simp [fillArgs]
    | cons a as => simp [fillArgs, ih]

/-- Keyword update does not change the attribute names. -/
theorem setIfPresent_keys (d : List (String × Obj)) (k : String) (v : Obj) :
    (setIfPresent d k v).map Prod.fst = d.map Prod.fst := by
  induction d with
  | nil => rfl
  | cons p t ih =>
    by_cases hp : p.1 = k
    · simp [setIfPresent, hp] at ih ⊢
      simpa [hp] using ih
    · simp [setIfPresent, hp] at ih ⊢
      simpa using ih

/-- The kwargs loop does not change the attribute names. -/
theorem fillKwargs_keys (kwargs : List (String × Obj)) (d : List (String × Obj)) :
    (fillKwargs d kwargs).map Prod.fst = d.map Prod.fst := by
  induction kwargs generalizing d with
  | nil => rfl
  | cons p t ih =>
    obtain ⟨k, v⟩ := p
    rw [fillKwargs, ih, setIfPresent_keys]

/-- An unknown keyword is silently ignored: updating a key that is not an
attribute name leaves the dictionary unchanged. -/
theorem setIfPresent_of_not_mem (d : List (String × Obj)) (k : String) (v : Obj)
    (h : k ∉ d.map Prod.fst) : setIfPresent d k v = d := by
  induction d with
  | nil => rfl
  | cons p t ih =>
    simp only [List.map_cons, List.mem_cons, not_or] at h
    have hne : ¬ p.1 = k := fun hh => h.1 hh.symm
    simp only [setIfPresent, List.map_cons, if_neg hne]
    have := ih h.2
    simp only [setIfPresent] at this
    rw [this]

/-- Updating one attribute does not affect lookups of other attributes. -/
theorem lookupAttr_setIfPresent_ne (d : List (String × Obj)) (k k' : String)
    (v : Obj) (h : k' ≠ k) :
    lookupAttr (setIfPresent d k v) k' = lookupAttr d k' := by
  induction d with
  | nil => rfl
  | cons p t ih =>
    by_cases hp : p.1 = k
    · simp only [setIfPresent, List.map_cons, if_pos hp, lookupAttr, List.find?]
      rw [show (k == k') = false by simpa using (Ne.symm h)]
      rw [show (p.1 == k') = false by simpa [hp] using (Ne.symm h)]
      exact ih
    · simp only [setIfPresent, List.map_cons, if_neg hp, lookupAttr, List.find?]
      cases hpk : p.1 == k'
      · exact ih
      · rfl

/-- Looking up an existing key after setting it returns the new value. -/
theorem lookupAttr_setIfPresent_self (d : List (String × Obj)) (k : String)
    (v : Obj) (h : k ∈ d.map Prod.fst) :
    lookupAttr (setIfPresent d k v) k = v := by
  induction d with
  | nil => simp at h
  | cons p t ih =>
    by_cases hp : p.1 = k
    · simp [setIfPresent, if_pos hp, lookupAttr, List.find?]
    · simp only [List.map_cons, List.mem_cons, not_or] at h
      rcases h with h | h
      · exact absurd h.symm hp
      · simp only [setIfPresent, if_neg hp, lookupAttr, List.find?]
        rw [show (p.1 == k) = false by simpa using hp]
        exact ih h

/-- Keywords that do not mention an attribute do not affect its lookup. -/
theorem lookupAttr_fillKwargs_not_mem (kwargs : List (String × Obj))
    (d : List (String × Obj)) (k : String) (h : k ∉ kwargs.map Prod.fst) :
    lookupAttr (fillKwargs d kwargs) k = lookupAttr d k := by
  induction kwargs generalizing d with
  | nil => rfl
  | cons p t ih =>
    simp only [List.map_cons, List.mem_cons, not_or] at h
    rw [fillKwargs, ih _ h.2, lookupAttr_setIfPresent_ne _ _ _ _ h.1]

/-- With at most three positional arguments, the three optional attributes
keep their `__init__` defaults before keyword filling. -/
theorem fillArgs_defaults_short (args : List Obj) (h : args.length ≤ 3) :
    lookupAttr (fillArgs defaultAttrs args) "optimiser" = .noneV
    ∧ lookupAttr (fillArgs defaultAttrs args) "val_loader" = .emptyDict
    ∧ lookupAttr (fillArgs defaultAttrs args) "nr_of_epochs" = .intV 100 := by
  match args with
  | [] => exact ⟨rfl, rfl, rfl⟩
  | [a] => exact ⟨rfl, rfl, rfl⟩
  | [a, b] => exact ⟨rfl, rfl, rfl⟩
  | [a, b, c] => exact ⟨rfl, rfl, rfl⟩
  | a :: b :: c :: d :: rest => simp at h

/-- Dropping the keywords that are not attribute names does not change the
result of the kwargs loop. -/
theorem fillKwargs_filter_known (kwargs : List (String × Obj))
    (d : List (String × Obj)) (hk : d.map Prod.fst = defaultAttrs.map Prod.fst) :
    fillKwargs d (kwargs.filter fun p => (defaultAttrs.map Prod.fst).contains p.1)
      = fillKwargs d kwargs := by
  induction kwargs generalizing d with
  | nil => rfl
  | cons p t ih =>
    obtain ⟨k, v⟩ := p
    by_cases hc : (defaultAttrs.map Prod.fst).contains k
    · rw [List.filter_cons, if_pos (by simpa using hc)]
      rw [fillKwargs, fillKwargs]
      exact ih _ (by rw [setIfPresent_keys, hk])
    · rw [List.filter_cons, if_neg (by simpa using hc)]
      rw [fillKwargs]
      rw [setIfPresent_of_not_mem _ _ _ (by rw [hk]; simpa using hc)]
      exact ih _ hk

/-- C6: `DefaultTrainLoop.__init__` raises an `AssertionError` exactly when
`model`, `train_loader` or `criterion` is still `None` after positional and
keyword filling; on success the untouched optional attributes hold their
defaults (`optimiser` an SGD over the model's parameters, `val_loader` the
empty dict, `nr_of_epochs` 100); and keyword arguments whose names are not
attribute names are silently ignored. -/
theorem C6_theorem :
    (∀ (args : List Obj) (kwargs : List (String × Obj)),
      (∃ msg, setAttributes args kwargs = .error (.assertionError msg))
        ↔ (lookupAttr (fillKwargs (fillArgs defaultAttrs args) kwargs) "model" = .noneV
          ∨ lookupAttr (fillKwargs (fillArgs defaultAttrs args) kwargs) "train_loader" = .noneV
          ∨ lookupAttr (fillKwargs (fillArgs defaultAttrs args) kwargs) "criterion" = .noneV))
    ∧ (∀ (args : List Obj) (kwargs d : List (String × Obj)),
      args.length ≤ 3 →
      "optimiser" ∉ kwargs.map Prod.fst →
      "val_loader" ∉ kwargs.map Prod.fst →
      "nr_of_epochs" ∉ kwargs.map Prod.fst →
      setAttributes args kwargs = .ok d →
      lookupAttr d "optimiser" = .sgd (.paramsOf (lookupAttr d "model"))
        ∧ lookupAttr d "val_loader" = .emptyDict
        ∧ lookupAttr d "nr_of_epochs" = .intV 100)
    ∧ (∀ (args : List Obj) (kwargs : List (String × Obj)),
      setAttributes args (kwargs.filter fun p => (defaultAttrs.map Prod.fst).contains p.1)
        = setAttributes args kwargs) := by
  refine ⟨?_, ?_, ?_⟩
  · intro args kwargs
    simp only [setAttributes]
    by_cases h1 : lookupAttr (fillKwargs (fillArgs defaultAttrs args) kwargs) "model" = .noneV
    · rw [if_pos h1]
      simp [h1]
    · rw [if_neg h1]
      by_cases h2 : lookupAttr (fillKwargs (fillArgs defaultAttrs args) kwargs) "train_loader" = .noneV
      · rw [if_pos h2]
        simp [h1, h2]
      · rw [if_neg h2]
        by_cases h3 : lookupAttr (fillKwargs (fillArgs defaultAttrs args) kwargs) "criterion" = .noneV
        · rw [if_pos h3]
          simp [h1, h2, h3]
        · rw [if_neg h3]
          simp [h1, h2, h3]
  · intro args kwargs d hlen ho hv hn hok
    simp only [setAttributes] at hok
    by_cases h1 : lookupAttr (fillKwargs (fillArgs defaultAttrs args) kwargs) "model" = .noneV
    · rw [if_pos h1] at hok
      exact absurd hok (by simp)
    rw [if_neg h1] at hok
    by_cases h2 : lookupAttr (fillKwargs (fillArgs defaultAttrs args) kwargs) "train_loader" = .noneV
    · rw [if_pos h2] at hok
      exact absurd hok (by simp)
    rw [if_neg h2] at hok
    by_cases h3 : lookupAttr (fillKwargs (fillArgs defaultAttrs args) kwargs) "criterion" = .noneV
    · rw [if_pos h3] at hok
      exact absurd hok (by simp)
    rw [if_neg h3] at hok
    simp only [Except.ok.injEq] at hok
    have hopt : lookupAttr (fillKwargs (fillArgs defaultAttrs args) kwargs) "optimiser" = .noneV := by
      rw [lookupAttr_fillKwargs_not_mem kwargs _ _ ho]
      exact (fillArgs_defaults_short args hlen).1
    rw [if_pos hopt] at hok
    subst hok
    have hmem : "optimiser" ∈ (fillKwargs (fillArgs defaultAttrs args) kwargs).map Prod.fst := by
      rw [fillKwargs_keys, fillArgs_keys]
      decide
    refine ⟨?_, ?_, ?_⟩
    · rw [lookupAttr_setIfPresent_self _ _ _ hmem,
        lookupAttr_setIfPresent_ne _ _ _ _ (by decide)]
    · rw [lookupAttr_setIfPresent_ne _ _ _ _ (by decide),
        lookupAttr_fillKwargs_not_mem kwargs _ _ hv]
      exact (fillArgs_defaults_short args hlen).2.1
    · rw [lookupAttr_setIfPresent_ne _ _ _ _ (by decide),
        lookupAttr_fillKwargs_not_mem kwargs _ _ hn]
      exact (fillArgs_defaults_short args hlen).2.2
  · intro args kwargs
    simp only [setAttributes]
    rw [fillKwargs_filter_known kwargs _ (fillArgs_keys defaultAttrs args)]

/-- C6 witness: no arguments at all raises (model unset); three positional
arguments with one unknown keyword succeed with the defaulted attributes;
filtering out the unknown keyword gives the same result. -/
theorem C6_witness :
    (∃ msg, setAttributes [] [] = .error (.assertionError msg))
    ∧ (lookupAttr
        [("model", Obj.ext 1), ("train_loader", Obj.ext 2), ("criterion", Obj.ext 3),
         ("optimiser", Obj.sgd (Obj.paramsOf (Obj.ext 1))), ("val_loader", Obj.emptyDict),
         ("nr_of_epochs", Obj.intV 100)] "optimiser"
        = .sgd (.paramsOf (lookupAttr
            [("model", Obj.ext 1), ("train_loader", Obj.ext 2), ("criterion", Obj.ext 3),
             ("optimiser", Obj.sgd (Obj.paramsOf (Obj.ext 1))), ("val_loader", Obj.emptyDict),
             ("nr_of_epochs", Obj.intV 100)] "model"))
      ∧ lookupAttr
          [("model", Obj.ext 1), ("train_loader", Obj.ext 2), ("criterion", Obj.ext 3),
           ("optimiser", Obj.sgd (Obj.paramsOf (Obj.ext 1))), ("val_loader", Obj.emptyDict),
           ("nr_of_epochs", Obj.intV 100)] "val_loader" = .emptyDict
      ∧ lookupAttr
          [("model", Obj.ext 1), ("train_loader", Obj.ext 2), ("criterion", Obj.ext 3),
           ("optimiser", Obj.sgd (Obj.paramsOf (Obj.ext 1))), ("val_loader", Obj.emptyDict),
           ("nr_of_epochs", Obj.intV 100)] "nr_of_epochs" = .intV 100)
    ∧ setAttributes [Obj.ext 1, Obj.ext 2, Obj.ext 3]
        ([("junk", Obj.intV 5)].filter fun p => (defaultAttrs.map Prod.fst).contains p.1)
      = setAttributes [Obj.ext 1, Obj.ext 2, Obj.ext 3] [("junk", Obj.intV 5)] :=
  ⟨(C6_theorem.1 [] []).mpr (Or.inl rfl),
   C6_theorem.2.1 [Obj.ext 1, Obj.ext 2, Obj.ext 3] [("junk", Obj.intV 5)] _
     (by decide) (by decide) (by decide) (by decide) rfl,
   C6_theorem.2.2 [Obj.ext 1, Obj.ext 2, Obj.ext 3] [("junk", Obj.intV 5)]⟩
